import Mathlib

/-!
Verification of `scripts/init_project.py`, a template-customisation tool for a
dbt data-warehouse project.  The script walks a directory tree (skipping a
denylist of directory names and binary file extensions), counts and applies
substring replacements over file contents, renames a few paths, and drives the
whole process from an interactive `main` with a dry run and a confirmation
prompt.

Shallow embedding conventions used throughout this file:

* Python strings are modelled as lists of Unicode code points (`List Nat`);
  file names and user input, which only ever need equality tests and
  ASCII-case folds, are modelled as Lean `String` / `List Char`.
* File contents are modelled as byte lists (`List Nat`).  The script opens
  files with `encoding="utf-8", errors="ignore"`, so reading is the lenient
  UTF-8 decode `decodeUtf8Ignore` (invalid bytes are dropped) and writing is
  `encodeUtf8`.
* The file system is a finite tree `Entry`; a file carries a `readable` flag
  modelling whether opening it raises `OSError` (the script catches `OSError`
  and skips such files).  Writes to a file that was successfully read are
  modelled as always succeeding.
* Directory children are kept in listing order; real directories never repeat
  a name, and tree updates are written so that child replacement removes all
  entries with the updated name before re-inserting one.
* Fallible operations (`os.makedirs` on a file component, `shutil.move` onto
  an occupied destination, `os.rename` into the moved tree itself) return
  `Option`/`none` for a raised exception.
-/

namespace InitProject

/-! ### Python string primitives on code-point lists -/

/-- A valid Unicode scalar value (what a Python `str` element can be). -/
def ValidCp (n : Nat) : Prop := n < 0xD800 ∨ (0xE000 ≤ n ∧ n < 0x110000)

instance : DecidablePred ValidCp := fun _ => by unfold ValidCp; infer_instance

/-- Code points of a Lean string literal, used to instantiate theorems. -/
def cps (s : String) : List Nat := s.data.map Char.toNat

/-- Fuel-indexed core of Python `str.count` for a nonempty pattern `old`:
non-overlapping occurrences, scanning left to right.  The fuel is an upper
bound on the length of the remaining text; the top-level wrapper passes the
exact length. -/
def cgo (old : List Nat) : Nat → List Nat → Nat
  | _, [] => 0
  | 0, _ :: _ => 0
  | fuel + 1, c :: rest =>
      if old.isPrefixOf (c :: rest) then 1 + cgo old fuel ((c :: rest).drop old.length)
      else cgo old fuel rest

/-- Python `content.count(old)`: non-overlapping occurrences left to right;
an empty pattern occurs `len(content) + 1` times. -/
def pyCount (s old : List Nat) : Nat :=
  if old = [] then s.length + 1 else cgo old s.length s

/-- Fuel-indexed core of Python `str.replace` for a nonempty pattern. -/
def rgo (old new : List Nat) : Nat → List Nat → List Nat
  | _, [] => []
  | 0, s => s
  | fuel + 1, c :: rest =>
      if old.isPrefixOf (c :: rest) then new ++ rgo old new fuel ((c :: rest).drop old.length)
      else c :: rgo old new fuel rest

/-- Python `content.replace(old, new)`: every non-overlapping occurrence of
`old`, scanning left to right, is substituted by `new`; replacing the empty
pattern interleaves `new` before every character and at the end. -/
def pyReplace (s old new : List Nat) : List Nat :=
  if old = [] then new ++ s.foldr (fun c acc => c :: (new ++ acc)) []
  else rgo old new s.length s

/-- ASCII whitespace test matching the characters Python `str.strip` removes
for ASCII input. -/
def isSpaceChar (c : Char) : Bool :=
  c = ' ' || c = '\t' || c = '\n' || c = '\r' || c = '\x0b' || c = '\x0c'

/-- Python `s.strip()` (modelled for ASCII whitespace). -/
def pyStrip (s : String) : String :=
  ⟨((s.data.dropWhile isSpaceChar).reverse.dropWhile isSpaceChar).reverse⟩

/-- Python `s.lower()` (modelled as the ASCII case fold, which is what the
script relies on for extensions and y/n answers). -/
def pyLower (s : String) : String := ⟨s.data.map Char.toLower⟩

/-! ### `os.path.splitext`

`splitext` takes the extension from the last dot of the file name, except
that a run of dots at the very start of the name never starts an extension
(`".csv"` has no extension, `"a.csv"` has extension `".csv"`). -/

/-- Extension part of `os.path.splitext` on a plain file name.  `seen` records
whether a non-dot character occurred before the current position. -/
def extGo : List Char → Bool → List Char
  | [], _ => []
  | c :: rest, seen =>
      if c = '.' ∧ seen then
        let r := extGo rest seen
        if r = [] then c :: rest else r
      else extGo rest (seen || (c != '.'))

/-- `os.path.splitext(name)[1]` for a bare file name (no separators). -/
def extOf (name : List Char) : List Char := extGo name false

/-! ### UTF-8 encoding and lenient decoding -/

/-- UTF-8 encoding of one code point (junk on non-scalar values, which the
script never produces). -/
def encodeChar (n : Nat) : List Nat :=
  if n < 0x80 then [n]
  else if n < 0x800 then [0xC0 + n / 64, 0x80 + n % 64]
  else if n < 0x10000 then [0xE0 + n / 4096, 0x80 + n / 64 % 64, 0x80 + n % 64]
  else [0xF0 + n / 262144, 0x80 + n / 4096 % 64, 0x80 + n / 64 % 64, 0x80 + n % 64]

/-- UTF-8 encoding of a code-point sequence (Python `str.encode("utf-8")`,
used when the script writes a file back). -/
def encodeUtf8 : List Nat → List Nat
  | [] => []
  | c :: rest => encodeChar c ++ encodeUtf8 rest

/-- A UTF-8 continuation byte. -/
def isCont (b : Nat) : Bool := 0x80 ≤ b && b ≤ 0xBF

/-- Admissible second byte of a three-byte sequence with lead `b` (the ranges
that exclude overlong forms and surrogates). -/
def cont3 (b b2 : Nat) : Bool :=
  if b = 0xE0 then 0xA0 ≤ b2 && b2 ≤ 0xBF
  else if b = 0xED then 0x80 ≤ b2 && b2 ≤ 0x9F
  else isCont b2

/-- Admissible second byte of a four-byte sequence with lead `b`. -/
def cont4 (b b2 : Nat) : Bool :=
  if b = 0xF0 then 0x90 ≤ b2 && b2 ≤ 0xBF
  else if b = 0xF4 then 0x80 ≤ b2 && b2 ≤ 0x8F
  else isCont b2

/-- Fuel-indexed core of the lenient UTF-8 decode: a well-formed sequence is
decoded to its code point; on any malformed byte the lead byte is dropped and
decoding resumes at the next byte.  The resulting text is what CPython's
`errors="ignore"` handler produces.  The fuel bounds the remaining length. -/
def dgo : Nat → List Nat → List Nat
  | _, [] => []
  | 0, _ :: _ => []
  | fuel + 1, b :: rest =>
      if b < 0x80 then b :: dgo fuel rest
      else if 0xC2 ≤ b ∧ b ≤ 0xDF then
        match rest with
        | b2 :: r2 =>
            if isCont b2 then ((b - 0xC0) * 64 + (b2 - 0x80)) :: dgo fuel r2
            else dgo fuel rest
        | [] => []
      else if 0xE0 ≤ b ∧ b ≤ 0xEF then
        match rest with
        | b2 :: b3 :: r3 =>
            if cont3 b b2 && isCont b3 then
              ((b - 0xE0) * 4096 + (b2 - 0x80) * 64 + (b3 - 0x80)) :: dgo fuel r3
            else dgo fuel rest
        | _ => dgo fuel rest
      else if 0xF0 ≤ b ∧ b ≤ 0xF4 then
        match rest with
        | b2 :: b3 :: b4 :: r4 =>
            if cont4 b b2 && isCont b3 && isCont b4 then
              ((b - 0xF0) * 262144 + (b2 - 0x80) * 4096 + (b3 - 0x80) * 64 + (b4 - 0x80)) :: dgo fuel r4
            else dgo fuel rest
        | _ => dgo fuel rest
      else dgo fuel rest

/-- Python `bytes.decode("utf-8", errors="ignore")`: the text the script sees
when reading a file. -/
def decodeUtf8Ignore (bs : List Nat) : List Nat := dgo bs.length bs

/-- Fuel-indexed strict UTF-8 validity check (no `errors="ignore"`): `true`
iff the byte list is a well-formed UTF-8 encoding. -/
def vgo : Nat → List Nat → Bool
  | _, [] => true
  | 0, _ :: _ => false
  | fuel + 1, b :: rest =>
      if b < 0x80 then vgo fuel rest
      else if 0xC2 ≤ b ∧ b ≤ 0xDF then
        match rest with
        | b2 :: r2 => isCont b2 && vgo fuel r2
        | [] => false
      else if 0xE0 ≤ b ∧ b ≤ 0xEF then
        match rest with
        | b2 :: b3 :: r3 => cont3 b b2 && isCont b3 && vgo fuel r3
        | _ => false
      else if 0xF0 ≤ b ∧ b ≤ 0xF4 then
        match rest with
        | b2 :: b3 :: b4 :: r4 => cont4 b b2 && isCont b3 && isCont b4 && vgo fuel r4
        | _ => false
      else false

/-- `true` iff the bytes decode as UTF-8 without error (what a file must
satisfy for a strict `bytes.decode("utf-8")` not to raise). -/
def validUtf8 (bs : List Nat) : Bool := vgo bs.length bs

/-! ### Basic lemmas about the string primitives -/

theorem cgo_eq_of_le (old : List Nat) (hne : old ≠ []) :
    ∀ fuel₁ fuel₂ s, s.length ≤ fuel₁ → s.length ≤ fuel₂ →
      cgo old fuel₁ s = cgo old fuel₂ s := by
  have hpos : 0 < old.length := List.length_pos.mpr hne
  intro fuel₁
  induction fuel₁ with
  | zero =>
      intro fuel₂ s h₁ _
      cases s with
      | nil => cases fuel₂ <;> rfl
      | cons c rest => simp at h₁
  | succ f ih =>
      intro fuel₂ s h₁ h₂
      cases s with
      | nil => cases fuel₂ <;> rfl
      | cons c rest =>
          cases fuel₂ with
          | zero => simp at h₂
          | succ f₂ =>
              simp only [cgo]
              by_cases hp : old.isPrefixOf (c :: rest)
              · simp only [hp, if_true]
                have hlen : ((c :: rest).drop old.length).length ≤ f := by
                  simp only [List.length_drop, List.length_cons]
                  simp at h₁; omega
                have hlen₂ : ((c :: rest).drop old.length).length ≤ f₂ := by
                  simp only [List.length_drop, List.length_cons]
                  simp at h₂; omega
                rw [ih f₂ _ hlen hlen₂]
              · simp only [hp, Bool.false_eq_true, if_false]
                have hlen : rest.length ≤ f := by simp at h₁; omega
                have hlen₂ : rest.length ≤ f₂ := by simp at h₂; omega
                rw [ih f₂ _ hlen hlen₂]

theorem rgo_eq_of_le (old new : List Nat) (hne : old ≠ []) :
    ∀ fuel₁ fuel₂ s, s.length ≤ fuel₁ → s.length ≤ fuel₂ →
      rgo old new fuel₁ s = rgo old new fuel₂ s := by
  have hpos : 0 < old.length := List.length_pos.mpr hne
  intro fuel₁
  induction fuel₁ with
  | zero =>
      intro fuel₂ s h₁ _
      cases s with
      | nil => cases fuel₂ <;> rfl
      | cons c rest => simp at h₁
  | succ f ih =>
      intro fuel₂ s h₁ h₂
      cases s with
      | nil => cases fuel₂ <;> rfl
      | cons c rest =>
          cases fuel₂ with
          | zero => simp at h₂
          | succ f₂ =>
              simp only [rgo]
              by_cases hp : old.isPrefixOf (c :: rest)
              · simp only [hp, if_true]
                have hlen : ((c :: rest).drop old.length).length ≤ f := by
                  simp only [List.length_drop, List.length_cons]
                  simp at h₁; omega
                have hlen₂ : ((c :: rest).drop old.length).length ≤ f₂ := by
                  simp only [List.length_drop, List.length_cons]
                  simp at h₂; omega
                rw [ih f₂ _ hlen hlen₂]
              · simp only [hp, Bool.false_eq_true, if_false]
                have hlen : rest.length ≤ f := by simp at h₁; omega
                have hlen₂ : rest.length ≤ f₂ := by simp at h₂; omega
                rw [ih f₂ _ hlen hlen₂]

/-- If `old` has no occurrence in `s`, replacing it is the identity. -/
theorem pyReplace_of_count_zero (s old new : List Nat) (h : pyCount s old = 0) :
    pyReplace s old new = s := by
  unfold pyCount at h
  by_cases hold : old = []
  · simp [hold] at h
  · simp only [hold, if_false] at h
    unfold pyReplace
    simp only [hold, if_false]
    suffices hgen : ∀ fuel s, s.length ≤ fuel → cgo old fuel s = 0 → rgo old new fuel s = s by
      exact hgen s.length s le_rfl h
    intro fuel
    induction fuel with
    | zero =>
        intro s hs _
        cases s with
        | nil => rfl
        | cons c rest => simp at hs
    | succ f ih =>
        intro s hs hc
        cases s with
        | nil => rfl
        | cons c rest =>
            simp only [cgo] at hc
            simp only [rgo]
            by_cases hp : old.isPrefixOf (c :: rest)
            · simp [hp] at hc
            · simp only [hp, Bool.false_eq_true, if_false] at hc ⊢
              have hlen : rest.length ≤ f := by simp at hs; omega
              rw [ih rest hlen hc]

/-- Decoding is a left inverse of encoding on sequences of Unicode scalar
values: a file written by the script reads back as the text that was
written. -/
theorem dgo_encodeUtf8 (l : List Nat) (hv : ∀ n ∈ l, ValidCp n) :
    ∀ fuel, (encodeUtf8 l).length ≤ fuel → dgo fuel (encodeUtf8 l) = l := by
  induction l with
  | nil => intro fuel _; cases fuel <;> rfl
  | cons c rest ih =>
      intro fuel hlen
      have hvc : ValidCp c := hv c (by simp)
      have hvr : ∀ n ∈ rest, ValidCp n := fun n hn => hv n (by simp [hn])
      rcases Nat.lt_or_ge c 0x80 with h1 | h1
      · have he : encodeUtf8 (c :: rest) = c :: encodeUtf8 rest := by
          simp [encodeUtf8, encodeChar, h1]
        rw [he] at hlen ⊢
        obtain ⟨f, rfl⟩ : ∃ f, fuel = f + 1 := ⟨fuel - 1, by simp at hlen; omega⟩
        simp only [dgo, if_pos h1]
        rw [ih hvr f (by simp at hlen; omega)]
      · rcases Nat.lt_or_ge c 0x800 with h2 | h2
        · have he : encodeUtf8 (c :: rest) =
              (0xC0 + c / 64) :: (0x80 + c % 64) :: encodeUtf8 rest := by
            simp [encodeUtf8, encodeChar, h1, h2, Nat.not_lt.mpr h1]
          rw [he] at hlen ⊢
          obtain ⟨f, rfl⟩ : ∃ f, fuel = f + 1 := ⟨fuel - 1, by simp at hlen; omega⟩
          have hd1 : c / 64 ≥ 2 := by omega
          have hd2 : c / 64 ≤ 31 := by omega
          simp only [dgo, if_neg (by omega : ¬ (0xC0 + c / 64) < 0x80),
            if_pos (⟨by omega, by omega⟩ : 0xC2 ≤ 0xC0 + c / 64 ∧ 0xC0 + c / 64 ≤ 0xDF)]
          rw [if_pos (by simp [isCont]; omega)]
          have hval : (0xC0 + c / 64 - 0xC0) * 64 + (0x80 + c % 64 - 0x80) = c := by omega
          rw [hval, ih hvr f (by simp at hlen; omega)]
        · rcases Nat.lt_or_ge c 0x10000 with h3 | h3
          · have he : encodeUtf8 (c :: rest) =
                (0xE0 + c / 4096) :: (0x80 + c / 64 % 64) :: (0x80 + c % 64) ::
                  encodeUtf8 rest := by
              simp [encodeUtf8, encodeChar, h3, Nat.not_lt.mpr h1, Nat.not_lt.mpr h2]
            rw [he] at hlen ⊢
            obtain ⟨f, rfl⟩ : ∃ f, fuel = f + 1 := ⟨fuel - 1, by simp at hlen; omega⟩
            have hd1 : c / 4096 ≤ 15 := by omega
            have hsur : c < 0xD800 ∨ 0xE000 ≤ c := by
              rcases hvc with h | h
              · exact Or.inl h
              · exact Or.inr h.1
            simp only [dgo, if_neg (by omega : ¬ (0xE0 + c / 4096) < 0x80),
              if_neg (by omega : ¬ (0xC2 ≤ 0xE0 + c / 4096 ∧ 0xE0 + c / 4096 ≤ 0xDF)),
              if_pos (⟨by omega, by omega⟩ :
                0xE0 ≤ 0xE0 + c / 4096 ∧ 0xE0 + c / 4096 ≤ 0xEF)]
            have hc3 : cont3 (0xE0 + c / 4096) (0x80 + c / 64 % 64) = true := by
              simp only [cont3, isCont]
              split_ifs with hE0 hED
              · simp; omega
              · simp; omega
              · simp; omega
            rw [if_pos (by simp [hc3, isCont]; omega)]
            have hval : (0xE0 + c / 4096 - 0xE0) * 4096 +
                (0x80 + c / 64 % 64 - 0x80) * 64 + (0x80 + c % 64 - 0x80) = c := by omega
            rw [hval, ih hvr f (by simp at hlen; omega)]
          · have hub : c < 0x110000 := by
              rcases hvc with h | h
              · omega
              · exact h.2
            have he : encodeUtf8 (c :: rest) =
                (0xF0 + c / 262144) :: (0x80 + c / 4096 % 64) :: (0x80 + c / 64 % 64) ::
                  (0x80 + c % 64) :: encodeUtf8 rest := by
              simp [encodeUtf8, encodeChar, Nat.not_lt.mpr h1, Nat.not_lt.mpr h2,
                Nat.not_lt.mpr h3]
            rw [he] at hlen ⊢
            obtain ⟨f, rfl⟩ : ∃ f, fuel = f + 1 := ⟨fuel - 1, by simp at hlen; omega⟩
            have hd1 : c / 262144 ≤ 4 := by omega
            have hd2 : 1 ≤ c / 262144 ∨ 0x10000 ≤ c % 262144 := by omega
            simp only [dgo, if_neg (by omega : ¬ (0xF0 + c / 262144) < 0x80),
              if_neg (by omega : ¬ (0xC2 ≤ 0xF0 + c / 262144 ∧ 0xF0 + c / 262144 ≤ 0xDF)),
              if_neg (by omega : ¬ (0xE0 ≤ 0xF0 + c / 262144 ∧ 0xF0 + c / 262144 ≤ 0xEF)),
              if_pos (⟨by omega, by omega⟩ :
                0xF0 ≤ 0xF0 + c / 262144 ∧ 0xF0 + c / 262144 ≤ 0xF4)]
            have hc4 : cont4 (0xF0 + c / 262144) (0x80 + c / 4096 % 64) = true := by
              simp only [cont4, isCont]
              split_ifs with hF0 hF4
              · simp; omega
              · simp; omega
              · simp; omega
            rw [if_pos (by simp [hc4, isCont]; omega)]
            have hval : (0xF0 + c / 262144 - 0xF0) * 262144 +
                (0x80 + c / 4096 % 64 - 0x80) * 4096 +
                (0x80 + c / 64 % 64 - 0x80) * 64 + (0x80 + c % 64 - 0x80) = c := by omega
            rw [hval, ih hvr f (by simp at hlen; omega)]

/-- Round trip at the wrapper level. -/
theorem decode_encode (l : List Nat) (hv : ∀ n ∈ l, ValidCp n) :
    decodeUtf8Ignore (encodeUtf8 l) = l :=
  dgo_encodeUtf8 l hv _ le_rfl

set_option maxRecDepth 4000 in
/-- Every code point produced by the lenient decoder is a Unicode scalar
value (the decoder rejects surrogate encodings and out-of-range leads). -/
theorem validCp_of_mem_dgo : ∀ fuel bs n, n ∈ dgo fuel bs → ValidCp n := by
  intro fuel
  induction fuel with
  | zero => intro bs n hn; cases bs <;> simp [dgo] at hn
  | succ f ih =>
      intro bs n hn
      cases bs with
      | nil => simp [dgo] at hn
      | cons b rest =>
          simp only [dgo] at hn
          split_ifs at hn with h1 h2 h3 h4
          · rcases List.mem_cons.mp hn with rfl | hn
            · exact Or.inl (by omega)
            · exact ih rest n hn
          · cases rest with
            | nil => simp at hn
            | cons b2 r2 =>
                replace hn : n ∈ (if isCont b2 = true then
                    ((b - 0xC0) * 64 + (b2 - 0x80)) :: dgo f r2
                  else dgo f (b2 :: r2)) := hn
                by_cases hcont : isCont b2
                · rw [if_pos hcont] at hn
                  rcases List.mem_cons.mp hn with rfl | hn
                  · simp only [isCont, Bool.and_eq_true, decide_eq_true_eq] at hcont
                    exact Or.inl (by omega)
                  · exact ih r2 n hn
                · rw [if_neg hcont] at hn
                  exact ih (b2 :: r2) n hn
          · cases rest with
            | nil => exact ih [] n hn
            | cons b2 r2 =>
                cases r2 with
                | nil => exact ih [b2] n hn
                | cons b3 r3 =>
                    replace hn : n ∈ (if (cont3 b b2 && isCont b3) = true then
                        ((b - 0xE0) * 4096 + (b2 - 0x80) * 64 + (b3 - 0x80)) :: dgo f r3
                      else dgo f (b2 :: b3 :: r3)) := hn
                    by_cases hcont : cont3 b b2 && isCont b3
                    · rw [if_pos hcont] at hn
                      rcases List.mem_cons.mp hn with rfl | hn
                      · simp only [cont3, isCont, Bool.and_eq_true,
                          decide_eq_true_eq] at hcont
                        obtain ⟨hc2, hc3⟩ := hcont
                        split_ifs at hc2 with hE0 hED
                        · simp at hc2; left; omega
                        · simp at hc2; left; omega
                        · simp at hc2
                          rcases Nat.lt_or_ge b 0xED with hlo | hhi
                          · left; omega
                          · right; constructor <;> omega
                      · exact ih r3 n hn
                    · rw [if_neg hcont] at hn
                      exact ih (b2 :: b3 :: r3) n hn
          · cases rest with
            | nil => exact ih [] n hn
            | cons b2 r2 =>
                cases r2 with
                | nil => exact ih [b2] n hn
                | cons b3 r3 =>
                    cases r3 with
                    | nil => exact ih [b2, b3] n hn
                    | cons b4 r4 =>
                        replace hn : n ∈ (if (cont4 b b2 && isCont b3 && isCont b4) = true then
                            ((b - 0xF0) * 262144 + (b2 - 0x80) * 4096 + (b3 - 0x80) * 64 +
                              (b4 - 0x80)) :: dgo f r4
                          else dgo f (b2 :: b3 :: b4 :: r4)) := hn
                        by_cases hcont : cont4 b b2 && isCont b3 && isCont b4
                        · rw [if_pos hcont] at hn
                          rcases List.mem_cons.mp hn with rfl | hn
                          · simp only [cont4, isCont, Bool.and_eq_true,
                              decide_eq_true_eq] at hcont
                            obtain ⟨⟨hc2, hc3⟩, hc4⟩ := hcont
                            split_ifs at hc2 with hF0 hF4
                            · simp at hc2; right; constructor <;> omega
                            · simp at hc2; right; constructor <;> omega
                            · simp at hc2; right; constructor <;> omega
                          · exact ih r4 n hn
                        · rw [if_neg hcont] at hn
                          exact ih (b2 :: b3 :: b4 :: r4) n hn
          · exact ih rest n hn

/-- Every code point of a decoded file is a Unicode scalar value. -/
theorem validCp_decode (bs : List Nat) : ∀ n ∈ decodeUtf8Ignore bs, ValidCp n :=
  fun n hn => validCp_of_mem_dgo _ bs n hn

/-- Elements of the empty-pattern interleaving come from the text or the
replacement. -/
theorem mem_foldr_interleave (new : List Nat) :
    ∀ s x, x ∈ List.foldr (fun c acc => c :: (new ++ acc)) [] s → x ∈ s ∨ x ∈ new := by
  intro s
  induction s with
  | nil => intro x hx; simp at hx
  | cons c rest ihs =>
      intro x hx
      simp only [List.foldr_cons, List.mem_cons, List.mem_append] at hx
      rcases hx with rfl | hx | hx
      · exact Or.inl (by simp)
      · exact Or.inr hx
      · rcases ihs x hx with h | h
        · exact Or.inl (List.mem_cons_of_mem _ h)
        · exact Or.inr h

/-- Every code point of a replacement result comes from the original text or
from the replacement string. -/
theorem mem_pyReplace (s old new : List Nat) :
    ∀ x ∈ pyReplace s old new, x ∈ s ∨ x ∈ new := by
  unfold pyReplace
  by_cases hold : old = []
  · simp only [hold, if_true]
    intro x hx
    rcases List.mem_append.mp hx with hx | hx
    · exact Or.inr hx
    · exact mem_foldr_interleave new s x hx
  · simp only [hold, if_false]
    suffices hgen : ∀ fuel s x, x ∈ rgo old new fuel s → x ∈ s ∨ x ∈ new by
      exact hgen s.length s
    intro fuel
    induction fuel with
    | zero =>
        intro s x hx
        cases s with
        | nil => simp [rgo] at hx
        | cons c rest => exact Or.inl hx
    | succ f ihf =>
        intro s x hx
        cases s with
        | nil => simp [rgo] at hx
        | cons c rest =>
            simp only [rgo] at hx
            by_cases hp : old.isPrefixOf (c :: rest)
            · rw [if_pos hp] at hx
              rcases List.mem_append.mp hx with hx | hx
              · exact Or.inr hx
              · rcases ihf _ x hx with h | h
                · exact Or.inl (List.mem_of_mem_drop h)
                · exact Or.inr h
            · rw [if_neg hp] at hx
              rcases List.mem_cons.mp hx with rfl | hx
              · exact Or.inl (by simp)
              · rcases ihf rest x hx with h | h
                · exact Or.inl (List.mem_cons_of_mem _ h)
                · exact Or.inr h

/-! ### The file-system tree -/

/-- A file-system tree.  A file records whether opening it succeeds (`readable`,
modelling `OSError` on failure) and its raw bytes; a directory holds its
children in listing order. -/
inductive Entry where
  | file (readable : Bool) (bytes : List Nat)
  | dir (children : List (String × Entry))

/-- First child with the given name (directory listings never repeat names). -/
def findChild (cs : List (String × Entry)) (n : String) : Option Entry :=
  (cs.find? (fun x => x.1 == n)).map (fun x => x.2)

/-- Replace the first child with the given name using `f`; no-op when the
name is absent. -/
def updateChild : List (String × Entry) → String → (Entry → Entry) → List (String × Entry)
  | [], _, _ => []
  | (m, c) :: rest, n, f =>
      if m = n then (m, f c) :: rest else (m, c) :: updateChild rest n f

/-- Look up the entry at a (relative, component-wise) path. -/
def lookup : Entry → List String → Option Entry
  | e, [] => some e
  | .file _ _, _ :: _ => none
  | .dir cs, n :: rest =>
      match findChild cs n with
      | some c => lookup c rest
      | none => none
termination_by structural _ p => p

/-- The readable flag and bytes of the file at a path, `none` when the path
does not denote a file. -/
def readFile (fs : Entry) (p : List String) : Option (Bool × List Nat) :=
  match lookup fs p with
  | some (.file r bs) => some (r, bs)
  | _ => none

/-- The text the script obtains from `open(p).read()` with
`encoding="utf-8", errors="ignore"`, `none` when the path is not a file. -/
def readText (fs : Entry) (p : List String) : Option (List Nat) :=
  (readFile fs p).map (fun x => decodeUtf8Ignore x.2)

/-- Overwrite the bytes of the file at a path (`open(p, "w")` followed by
`write`); leaves the tree unchanged when the path is not an existing file. -/
def writeF : Entry → List String → List Nat → Entry
  | .file r _, [], bs => .file r bs
  | .dir cs, [], _ => .dir cs
  | .file r b, _ :: _, _ => .file r b
  | .dir cs, [n], bs =>
      .dir (updateChild cs n (fun c =>
        match c with
        | .file r _ => .file r bs
        | c => c))
  | .dir cs, n :: rest, bs => .dir (updateChild cs n (fun c => writeF c rest bs))
termination_by structural _ p _ => p

/-! ### Configuration (`SKIP_DIRS`, `BINARY_EXTENSIONS`, `PROMPTS`) -/

/-- Directory names `os.walk` must never descend into. -/
def SKIP_DIRS : List String :=
  [".git", "venv", "__pycache__", "target", "dbt_packages", "logs", ".sqlfluff_cache"]

/-- Extensions (including the dot, lower case) treated as binary and skipped. -/
def BINARY_EXTENSIONS : List (List Char) :=
  [".csv".data, ".pptx".data, ".xlsx".data, ".png".data, ".jpg".data, ".gif".data,
   ".ico".data, ".woff".data, ".woff2".data, ".pyc".data]

/-- `ext.lower() in BINARY_EXTENSIONS` applied to a file name: the test
`collect_text_files` uses to drop binary files. -/
def isBinaryName (name : String) : Bool :=
  decide ((extOf name.data).map Char.toLower ∈ BINARY_EXTENSIONS)

/-! ### `collect_text_files` (the `os.walk` scan)

`os.walk` yields each directory top-down: the file names of the directory
first, then each non-skipped subdirectory recursively, in listing order.
The script appends every file whose lowered extension is not in the binary
denylist.  Paths are component lists relative to the walk root; the root
directory itself is never tested against `SKIP_DIRS` (matching `os.walk`). -/

/-- Paths (relative, one component) of the non-binary files directly inside a
directory, in listing order. -/
def filesHere (cs : List (String × Entry)) : List (List String) :=
  cs.filterMap (fun x =>
    match x.2 with
    | .file _ _ => if isBinaryName x.1 then none else some [x.1]
    | .dir _ => none)

mutual

/-- All text-file paths produced by walking an entry (empty for a file, since
`os.walk` of a file path yields nothing). -/
def collectEntry : Entry → List (List String)
  | .file _ _ => []
  | .dir cs => filesHere cs ++ collectSub cs
termination_by structural e => e

/-- Walk the subdirectories of a listing, skipping `SKIP_DIRS` names. -/
def collectSub : List (String × Entry) → List (List String)
  | [] => []
  | (n, e) :: rest =>
      (match e with
       | .dir _ => if n ∈ SKIP_DIRS then [] else (collectEntry e).map (n :: ·)
       | .file _ _ => []) ++ collectSub rest
termination_by structural l => l

end

/-- `collect_text_files(root)`: all text-file paths under the root. -/
def collect_text_files (fs : Entry) : List (List String) := collectEntry fs

mutual

/-- Recursively well-formed tree: no directory listing repeats a name (true
of every real file system). -/
def wfE : Entry → Bool
  | .file _ _ => true
  | .dir cs => decide ((cs.map Prod.fst).Nodup) && wfL cs
termination_by structural e => e

/-- `wfE` for every entry of a listing. -/
def wfL : List (String × Entry) → Bool
  | [] => true
  | (_, e) :: rest => wfE e && wfL rest
termination_by structural l => l

end

/-! ### `count_replacements` and `replace_in_files` -/

/-- Occurrences of `old` in the file at `p` as `count_replacements` sees them:
zero when the file is missing, unreadable (`OSError` is caught and the file
skipped) or a directory. -/
def fileCount (fs : Entry) (p : List String) (old : List Nat) : Nat :=
  match readFile fs p with
  | some (true, bs) => pyCount (decodeUtf8Ignore bs) old
  | _ => 0

/-- Loop body of `count_replacements`: total occurrence count and number of
files containing at least one occurrence. -/
def crGo (fs : Entry) (old : List Nat) : List (List String) → Nat × Nat
  | [] => (0, 0)
  | p :: rest =>
      let c := fileCount fs p old
      let t := crGo fs old rest
      (c + t.1, (if 0 < c then 1 else 0) + t.2)

/-- `count_replacements(files, old, new)`: `(total occurrences, files hit)`
over the given file list, `(0, 0)` when `old == new`. -/
def count_replacements (fs : Entry) (files : List (List String)) (old new : List Nat) :
    Nat × Nat :=
  if old = new then (0, 0) else crGo fs old files

/-- Loop of `replace_in_files`: returns the updated tree, the total number of
occurrences replaced, and (as ghost instrumentation for frame reasoning) the
list of paths that were opened for writing, in order. -/
def rifGo (old new : List Nat) : Entry → List (List String) → Entry × Nat × List (List String)
  | fs, [] => (fs, 0, [])
  | fs, p :: rest =>
      match readFile fs p with
      | some (true, bs) =>
          let content := decodeUtf8Ignore bs
          let c := pyCount content old
          if 0 < c then
            let fs' := writeF fs p (encodeUtf8 (pyReplace content old new))
            let t := rifGo old new fs' rest
            (t.1, c + t.2.1, p :: t.2.2)
          else rifGo old new fs rest
      | _ => rifGo old new fs rest

/-- `replace_in_files(files, old, new)`: replaces every occurrence of `old`
by `new` in each readable file of the list, returning the new tree, the
total replaced, and the ghost list of rewritten paths.  Returns immediately
when `old == new`. -/
def replace_in_files (fs : Entry) (files : List (List String)) (old new : List Nat) :
    Entry × Nat × List (List String) :=
  if old = new then (fs, 0, []) else rifGo old new fs files

/-! ### `rename_path` (`os.makedirs` + `shutil.move`) -/

/-- `os.makedirs(path, exist_ok=True)`: create the missing directories along
the path; `none` models the `FileExistsError`/`NotADirectoryError` raised
when a component already exists as a file. -/
def makedirs : Entry → List String → Option Entry
  | .dir cs, [] => some (.dir cs)
  | .file _ _, [] => none
  | .file _ _, _ :: _ => none
  | .dir cs, n :: rest =>
      match findChild cs n with
      | some c => (makedirs c rest).map (fun c' => .dir (updateChild cs n (fun _ => c')))
      | none => (makedirs (.dir []) rest).map (fun c' => .dir (cs ++ [(n, c')]))
termination_by structural _ p => p

/-- Remove the entry at a path (used to model the source side of a move);
no-op when the path is absent. -/
def removeAt : Entry → List String → Entry
  | e, [] => e
  | .file r b, _ :: _ => .file r b
  | .dir cs, [n] => .dir (cs.filter (fun x => x.1 != n))
  | .dir cs, n :: rest => .dir (updateChild cs n (fun c => removeAt c rest))
termination_by structural _ p => p

/-- Insert `sub` at a path whose parent directories already exist (used to
model the destination side of a move); silently no-op when the parent chain
is missing, a situation the callers rule out beforehand. -/
def insertAt : Entry → List String → Entry → Entry
  | _, [], sub => sub
  | .file r b, _ :: _, _ => .file r b
  | .dir cs, [n], sub => .dir (cs.filter (fun x => x.1 != n) ++ [(n, sub)])
  | .dir cs, n :: rest, sub => .dir (updateChild cs n (fun c => insertAt c rest sub))
termination_by structural _ p _ => p

/-- `shutil.move(old, new)` on the same file system: when `new` is an
existing directory the source is moved *inside* it (erroring if that slot is
taken); when `new` is an existing file a file source overwrites it and a
directory source raises; otherwise the source is renamed to `new`.  Moving a
tree into itself raises (`os.rename` refuses it).  `none` models a raised
exception. -/
def shutilMove (fs : Entry) (old new : List String) : Option Entry :=
  match lookup fs old with
  | none => none
  | some subE =>
      match lookup fs new with
      | some (.dir _) =>
          let dst := new ++ [old.getLastD ""]
          if (lookup fs dst).isSome then none
          else if old.isPrefixOf dst then none
          else some (insertAt (removeAt fs old) dst subE)
      | some (.file _ _) =>
          match subE with
          | .file _ _ =>
              if old.isPrefixOf new then none
              else some (insertAt (removeAt fs old) new subE)
          | .dir _ => none
      | none =>
          if old.isPrefixOf new then none
          else some (insertAt (removeAt fs old) new subE)

/-- `rename_path(root, old_name, new_name)`: no-op returning `False` when the
names are equal or the old path is missing; otherwise ensures the parents of
the new path exist, moves, and returns `True`.  `none` models an uncaught
exception from `os.makedirs`/`shutil.move`. -/
def rename_path (fs : Entry) (old_name new_name : List String) : Option (Entry × Bool) :=
  if old_name = new_name then some (fs, false)
  else if (lookup fs old_name).isSome then
    match makedirs fs new_name.dropLast with
    | none => none
    | some fs1 =>
        match shutilMove fs1 old_name new_name with
        | none => none
        | some fs2 => some (fs2, true)
  else some (fs, false)

/-! ### Frame lemmas for child lists and file writes -/

theorem findChild_updateChild_self (cs : List (String × Entry)) (n : String)
    (f : Entry → Entry) : findChild (updateChild cs n f) n = (findChild cs n).map f := by
  induction cs with
  | nil => rfl
  | cons hd rest ih =>
      obtain ⟨m, c⟩ := hd
      by_cases hmn : m = n
      · subst hmn
        simp [updateChild, findChild]
      · simp only [updateChild, if_neg hmn]
        simp only [findChild, List.find?] at ih ⊢
        have : (m == n) = false := beq_false_of_ne hmn
        simp [this, ih]

theorem findChild_updateChild_ne (cs : List (String × Entry)) (n m : String)
    (f : Entry → Entry) (h : m ≠ n) :
    findChild (updateChild cs n f) m = findChild cs m := by
  induction cs with
  | nil => rfl
  | cons hd rest ih =>
      obtain ⟨k, c⟩ := hd
      by_cases hkn : k = n
      · subst hkn
        have : (k == m) = false := beq_false_of_ne (fun he => h (he ▸ rfl))
        simp [updateChild, findChild, List.find?, this]
      · simp only [updateChild, if_neg hkn]
        by_cases hkm : k = m
        · subst hkm
          simp [findChild, List.find?]
        · have : (k == m) = false := beq_false_of_ne hkm
          simp only [findChild, List.find?, this] at ih ⊢
          exact ih

/-- Writing a file changes only that file: any other path reads back
exactly as before (directories above the written file keep their dir-ness,
unrelated paths are untouched). -/
theorem readFile_writeF_other (p : List String) :
    ∀ (fs : Entry) (q : List String) (bs : List Nat), q ≠ p →
      readFile (writeF fs p bs) q = readFile fs q := by
  induction p with
  | nil =>
      intro fs q bs hq
      cases fs with
      | file r b =>
          cases q with
          | nil => exact absurd rfl hq
          | cons m qrest => rfl
      | dir cs => rfl
  | cons n prest ih =>
      intro fs q bs hq
      cases fs with
      | file r b =>
          cases prest <;> rfl
      | dir cs =>
          cases prest with
          | nil =>
              cases q with
              | nil => rfl
              | cons m qrest =>
                  by_cases hmn : m = n
                  · subst hmn
                    simp only [writeF, readFile, lookup, findChild_updateChild_self]
                    match hfc : findChild cs m with
                    | none => rfl
                    | some c =>
                        have hqr : qrest ≠ [] := fun he => hq (by simp [he])
                        cases c with
                        | file r b =>
                            cases qrest with
                            | nil => exact absurd rfl hqr
                            | cons a as => simp [lookup]
                        | dir cs₂ => simp [lookup]
                  · simp only [writeF, readFile, lookup,
                      findChild_updateChild_ne cs n m _ hmn]
          | cons n₂ prest₂ =>
              cases q with
              | nil => rfl
              | cons m qrest =>
                  by_cases hmn : m = n
                  · subst hmn
                    simp only [writeF, readFile, lookup, findChild_updateChild_self]
                    match hfc : findChild cs m with
                    | none => rfl
                    | some c =>
                        have hqr : qrest ≠ n₂ :: prest₂ := fun he => hq (by simp [he])
                        have := ih c qrest bs hqr
                        simp only [readFile] at this
                        simp [this]
                  · simp only [writeF, readFile, lookup,
                      findChild_updateChild_ne cs n m _ hmn]

/-- Writing a file updates exactly its bytes, keeping the readable flag. -/
theorem readFile_writeF_self (p : List String) :
    ∀ (fs : Entry) (r : Bool) (b bs : List Nat), readFile fs p = some (r, b) →
      readFile (writeF fs p bs) p = some (r, bs) := by
  induction p with
  | nil =>
      intro fs r b bs hf
      cases fs with
      | file r' b' =>
          simp only [readFile, lookup, Option.some.injEq, Prod.mk.injEq] at hf
          simp [writeF, readFile, lookup, hf.1]
      | dir cs => simp [readFile, lookup] at hf
  | cons n prest ih =>
      intro fs r b bs hf
      cases fs with
      | file r' b' => simp [readFile, lookup] at hf
      | dir cs =>
          cases prest with
          | nil =>
              simp only [readFile, lookup] at hf
              match hfc : findChild cs n with
              | none => rw [hfc] at hf; simp at hf
              | some c =>
                  rw [hfc] at hf
                  cases c with
                  | file rc bc =>
                      simp only [lookup, Option.some.injEq, Prod.mk.injEq] at hf
                      simp only [writeF, readFile, lookup, findChild_updateChild_self, hfc,
                        Option.map_some]
                      simp [lookup, hf.1]
                  | dir cs₂ => simp [lookup] at hf
          | cons n₂ prest₂ =>
              simp only [readFile, lookup] at hf
              match hfc : findChild cs n with
              | none => rw [hfc] at hf; simp at hf
              | some c =>
                  rw [hfc] at hf
                  have hrec : readFile c (n₂ :: prest₂) = some (r, b) := by
                    simp only [readFile]
                    exact hf
                  have := ih c r b bs hrec
                  simp only [readFile] at this
                  simp only [writeF, readFile, lookup, findChild_updateChild_self, hfc,
                    Option.map_some]
                  exact this

/-! ### Behaviour of the count and replace loops -/

/-- `crGo` only looks at the listed files, through `readFile`. -/
theorem crGo_congr (old : List Nat) :
    ∀ (files : List (List String)) (fs₁ fs₂ : Entry),
      (∀ p ∈ files, readFile fs₁ p = readFile fs₂ p) →
      crGo fs₁ old files = crGo fs₂ old files := by
  intro files
  induction files with
  | nil => intro fs₁ fs₂ _; rfl
  | cons q rest ih =>
      intro fs₁ fs₂ h
      have hq : readFile fs₁ q = readFile fs₂ q := h q (by simp)
      have hrest : ∀ p ∈ rest, readFile fs₁ p = readFile fs₂ p :=
        fun p hp => h p (List.mem_cons_of_mem _ hp)
      simp only [crGo, fileCount, hq, ih fs₁ fs₂ hrest]

/-- Files not in the processed list are untouched by the replace loop. -/
theorem rifGo_frame (old new : List Nat) :
    ∀ (files : List (List String)) (fs : Entry) (q : List String), q ∉ files →
      readFile (rifGo old new fs files).1 q = readFile fs q := by
  intro files
  induction files with
  | nil => intro fs q _; rfl
  | cons t rest ih =>
      intro fs q hq
      have hqt : q ≠ t := fun he => hq (he ▸ List.mem_cons_self t rest)
      have hqr : q ∉ rest := fun hm => hq (List.mem_cons_of_mem _ hm)
      simp only [rifGo]
      match hrf : readFile fs t with
      | some (true, bs) =>
          simp only []
          by_cases hc : 0 < pyCount (decodeUtf8Ignore bs) old
          · rw [if_pos hc]
            rw [ih _ q hqr, readFile_writeF_other t fs q _ hqt]
          · rw [if_neg hc]
            exact ih fs q hqr
      | some (false, bs) => exact ih fs q hqr
      | none => exact ih fs q hqr

/-- The total returned by the replace loop is the total the count loop
reports on the same tree and file list, provided no file is listed twice. -/
theorem rifGo_total (old new : List Nat) :
    ∀ (files : List (List String)) (fs : Entry), files.Nodup →
      (rifGo old new fs files).2.1 = (crGo fs old files).1 := by
  intro files
  induction files with
  | nil => intro fs _; rfl
  | cons q rest ih =>
      intro fs hnd
      have hq : q ∉ rest := (List.nodup_cons.mp hnd).1
      have hrest : rest.Nodup := (List.nodup_cons.mp hnd).2
      simp only [rifGo, crGo, fileCount]
      match hrf : readFile fs q with
      | some (true, bs) =>
          simp only []
          by_cases hc : 0 < pyCount (decodeUtf8Ignore bs) old
          · rw [if_pos hc]
            have hcong : crGo (writeF fs q (encodeUtf8
                (pyReplace (decodeUtf8Ignore bs) old new))) old rest = crGo fs old rest :=
              crGo_congr old rest _ fs
                (fun p hp => readFile_writeF_other q fs p _ (fun he => hq (he ▸ hp)))
            simp only [ih _ hrest, hcong]
          · rw [if_neg hc]
            have : pyCount (decodeUtf8Ignore bs) old = 0 := by omega
            simp only [ih fs hrest, this]
            omega
      | some (false, bs) => simp only [ih fs hrest]; omega
      | none => simp only [ih fs hrest]; omega

/-- A file in which `old` does not occur (or which cannot be read) is never
rewritten by the replace loop: its entry is untouched and its path never
enters the written-files log. -/
theorem rifGo_skip (old new : List Nat) :
    ∀ (files : List (List String)) (fs : Entry) (q : List String),
      fileCount fs q old = 0 →
      readFile (rifGo old new fs files).1 q = readFile fs q ∧
        q ∉ (rifGo old new fs files).2.2 := by
  intro files
  induction files with
  | nil => intro fs q _; exact ⟨rfl, by simp [rifGo]⟩
  | cons t rest ih =>
      intro fs q h0
      simp only [rifGo]
      match hrf : readFile fs t with
      | some (true, bs) =>
          simp only []
          by_cases hc : 0 < pyCount (decodeUtf8Ignore bs) old
          · rw [if_pos hc]
            have hqt : q ≠ t := by
              intro he
              subst he
              simp only [fileCount, hrf] at h0
              omega
            set fs' := writeF fs t (encodeUtf8 (pyReplace (decodeUtf8Ignore bs) old new))
              with hfs'
            have hpres : readFile fs' q = readFile fs q :=
              readFile_writeF_other t fs q _ hqt
            have h0' : fileCount fs' q old = 0 := by
              simp only [fileCount, hpres]
              simpa only [fileCount] using h0
            obtain ⟨ha, hb⟩ := ih fs' q h0'
            refine ⟨ha.trans hpres, ?_⟩
            simp only [List.mem_cons]
            rintro (rfl | hm)
            · exact hqt rfl
            · exact hb hm
          · rw [if_neg hc]
            exact ih fs q h0
      | some (false, bs) => exact ih fs q h0
      | none => exact ih fs q h0

/-- Per-file functional correctness of the replace loop: every listed
readable file ends up holding its original text with all occurrences of
`old` replaced by `new`. -/
theorem rifGo_readText (old new : List Nat) (hnv : ∀ n ∈ new, ValidCp n) :
    ∀ (files : List (List String)) (fs : Entry), files.Nodup →
      ∀ p ∈ files, ∀ bs, readFile fs p = some (true, bs) →
        readText (rifGo old new fs files).1 p =
          some (pyReplace (decodeUtf8Ignore bs) old new) := by
  intro files
  induction files with
  | nil => intro fs _ p hp; simp at hp
  | cons q rest ih =>
      intro fs hnd p hp bs hrd
      have hqr : q ∉ rest := (List.nodup_cons.mp hnd).1
      have hrest : rest.Nodup := (List.nodup_cons.mp hnd).2
      rcases List.mem_cons.mp hp with rfl | hpr
      · -- the head file itself
        simp only [rifGo, hrd]
        by_cases hc : 0 < pyCount (decodeUtf8Ignore bs) old
        · rw [if_pos hc]
          have hw : readFile (writeF fs p
                (encodeUtf8 (pyReplace (decodeUtf8Ignore bs) old new))) p =
              some (true, encodeUtf8 (pyReplace (decodeUtf8Ignore bs) old new)) :=
            readFile_writeF_self p fs true bs _ hrd
          have hfr : readFile (rifGo old new (writeF fs p
                (encodeUtf8 (pyReplace (decodeUtf8Ignore bs) old new))) rest).1 p =
              some (true, encodeUtf8 (pyReplace (decodeUtf8Ignore bs) old new)) := by
            rw [rifGo_frame old new rest _ p hqr, hw]
          have hvalid : ∀ n ∈ pyReplace (decodeUtf8Ignore bs) old new, ValidCp n := by
            intro n hn
            rcases mem_pyReplace (decodeUtf8Ignore bs) old new n hn with h | h
            · exact validCp_decode bs n h
            · exact hnv n h
          simp [readText, hfr, decode_encode _ hvalid]
        · rw [if_neg hc]
          have hc0 : pyCount (decodeUtf8Ignore bs) old = 0 := by omega
          have hfr : readFile (rifGo old new fs rest).1 p = some (true, bs) := by
            rw [rifGo_frame old new rest fs p hqr, hrd]
          simp [readText, hfr, pyReplace_of_count_zero _ _ new hc0]
      · -- a later file
        have hpq : p ≠ q := fun he => hqr (he ▸ hpr)
        simp only [rifGo]
        match hrf : readFile fs q with
        | some (true, bsq) =>
            simp only []
            by_cases hc : 0 < pyCount (decodeUtf8Ignore bsq) old
            · rw [if_pos hc]
              set fs' := writeF fs q (encodeUtf8
                (pyReplace (decodeUtf8Ignore bsq) old new)) with hfs'
              have hrd' : readFile fs' p = some (true, bs) := by
                rw [readFile_writeF_other q fs p _ hpq, hrd]
              exact ih fs' hrest p hpr bs hrd'
            · rw [if_neg hc]
              exact ih fs hrest p hpr bs hrd
        | some (false, bsq) => exact ih fs hrest p hpr bs hrd
        | none => exact ih fs hrest p hpr bs hrd

/-- The count loop's total is the sum of the per-file occurrence counts. -/
theorem crGo_fst_eq_sum (fs : Entry) (old : List Nat) :
    ∀ files : List (List String),
      (crGo fs old files).1 = (files.map (fun p => fileCount fs p old)).sum := by
  intro files
  induction files with
  | nil => rfl
  | cons q rest ih => simp [crGo, ih]

/-- Core of the dry-run/apply agreement: on the same tree and the same
duplicate-free file list, the total `replace_in_files` replaces is exactly
the total `count_replacements` reports. -/
theorem replace_total_eq_count_total (fs : Entry) (files : List (List String))
    (old new : List Nat) (hnd : files.Nodup) :
    (replace_in_files fs files old new).2.1 = (count_replacements fs files old new).1 := by
  unfold replace_in_files count_replacements
  by_cases h : old = new
  · simp [h]
  · rw [if_neg h, if_neg h]
    exact rifGo_total old new files fs hnd

/-! ### Claim theorems about `count_replacements` / `replace_in_files` -/

/-- C3: for every duplicate-free list of readable files and every pair
`(old, new)`: if `old = new`, `replace_in_files` returns `0` and leaves the
tree (hence every file) unchanged; otherwise each listed file ends up holding
its original text with every occurrence of `old` substituted by `new`
(left-to-right, non-overlapping — the semantics of `pyReplace`), and the
returned total is the sum over the files of the occurrence count of `old` in
the original content. -/
theorem replace_in_files_functional (fs : Entry) (files : List (List String))
    (old new : List Nat)
    (hread : ∀ p ∈ files, ∃ bs, readFile fs p = some (true, bs))
    (hnd : files.Nodup) (hnv : ∀ n ∈ new, ValidCp n) :
    (old = new → replace_in_files fs files old new = (fs, 0, [])) ∧
    (old ≠ new →
      (∀ p ∈ files, ∀ bs, readFile fs p = some (true, bs) →
        readText (replace_in_files fs files old new).1 p =
          some (pyReplace (decodeUtf8Ignore bs) old new)) ∧
      (replace_in_files fs files old new).2.1 =
        (files.map (fun p => pyCount ((readText fs p).getD []) old)).sum) := by
  constructor
  · intro h
    simp [replace_in_files, h]
  · intro h
    constructor
    · intro p hp bs hbs
      unfold replace_in_files
      rw [if_neg h]
      exact rifGo_readText old new hnv files fs hnd p hp bs hbs
    · unfold replace_in_files
      rw [if_neg h]
      rw [rifGo_total old new files fs hnd, crGo_fst_eq_sum]
      congr 1
      apply List.map_congr_left
      intro p hp
      obtain ⟨bs, hbs⟩ := hread p hp
      simp [fileCount, readText, hbs]

/-- C3 witness: a concrete one-file tree; replacing `"a"` by `"b"` in a file
holding `"xa"` rewrites it to `"xb"`, and with `old = new` nothing changes. -/
theorem replace_in_files_functional_witness :
    readText (replace_in_files (.dir [("f.txt", .file true [120, 97])]) [["f.txt"]]
        (cps "a") (cps "b")).1 ["f.txt"] = some (cps "xb") ∧
    replace_in_files (.dir [("f.txt", .file true [120, 97])]) [["f.txt"]]
        (cps "a") (cps "a") = (.dir [("f.txt", .file true [120, 97])], 0, []) := by
  have h := replace_in_files_functional (.dir [("f.txt", .file true [120, 97])])
    [["f.txt"]] (cps "a") (cps "b")
    (by
      intro p hp
      simp only [List.mem_singleton] at hp
      subst hp
      exact ⟨[120, 97], rfl⟩)
    (by decide) (by decide)
  have h2 := (h.2 (by decide)).1 ["f.txt"] (by simp) [120, 97] rfl
  constructor
  · rw [h2]; decide
  · have h' := replace_in_files_functional (.dir [("f.txt", .file true [120, 97])])
      [["f.txt"]] (cps "a") (cps "a")
      (by
        intro p hp
        simp only [List.mem_singleton] at hp
        subst hp
        exact ⟨[120, 97], rfl⟩)
      (by decide) (by decide)
    exact h'.1 rfl

/-- C9: a listed file in which `old` does not occur is not rewritten at all:
it is never opened for writing (its path never enters the written-files log)
and its stored bytes and readable flag are bit-for-bit unchanged, even while
other files of the list are rewritten. -/
theorem replace_in_files_untouched (fs : Entry) (files : List (List String))
    (old new : List Nat) (q : List String) (r : Bool) (bs : List Nat)
    (hq : readFile fs q = some (r, bs))
    (h0 : pyCount (decodeUtf8Ignore bs) old = 0) :
    readFile (replace_in_files fs files old new).1 q = some (r, bs) ∧
      q ∉ (replace_in_files fs files old new).2.2 := by
  unfold replace_in_files
  by_cases h : old = new
  · rw [if_pos h]
    exact ⟨hq, by simp⟩
  · rw [if_neg h]
    have hfc : fileCount fs q old = 0 := by
      cases r with
      | true => simp [fileCount, hq, h0]
      | false => simp [fileCount, hq]
    obtain ⟨ha, hb⟩ := rifGo_skip old new files fs q hfc
    exact ⟨ha.trans hq, hb⟩

/-- C9 witness: with the pair `("a" → "b")`, the file `b.txt` (no
occurrence) is untouched and unlogged even though `a.txt` is rewritten. -/
theorem replace_in_files_untouched_witness :
    readFile (replace_in_files (.dir [("a.txt", .file true [97]), ("b.txt", .file true [98])])
        [["a.txt"], ["b.txt"]] (cps "a") (cps "b")).1 ["b.txt"] = some (true, [98]) ∧
    ["b.txt"] ∉ (replace_in_files (.dir [("a.txt", .file true [97]), ("b.txt", .file true [98])])
        [["a.txt"], ["b.txt"]] (cps "a") (cps "b")).2.2 ∧
    (replace_in_files (.dir [("a.txt", .file true [97]), ("b.txt", .file true [98])])
        [["a.txt"], ["b.txt"]] (cps "a") (cps "b")).2.1 = 1 := by
  have h := replace_in_files_untouched
    (.dir [("a.txt", .file true [97]), ("b.txt", .file true [98])])
    [["a.txt"], ["b.txt"]] (cps "a") (cps "b") ["b.txt"] true [98] rfl (by decide)
  exact ⟨h.1, h.2, by decide⟩

/-- C2 counterexample: a readable file whose bytes do **not** decode as UTF-8
(`0xFF` followed by `"ci_cd_project"`) is *not* skipped by
`count_replacements` / `replace_in_files`: the lenient `errors="ignore"`
read drops the bad byte, the occurrence is counted (`(1, 1)`, not `(0, 0)`),
and applying the replacement rewrites the file — its bytes change. -/
theorem decode_failure_not_skipped_cex :
    validUtf8 (255 :: cps "ci_cd_project") = false ∧
    count_replacements (.dir [("r.txt", .file true (255 :: cps "ci_cd_project"))])
        [["r.txt"]] (cps "ci_cd_project") (cps "acme") = (1, 1) ∧
    readFile (replace_in_files (.dir [("r.txt", .file true (255 :: cps "ci_cd_project"))])
        [["r.txt"]] (cps "ci_cd_project") (cps "acme")).1 ["r.txt"] =
      some (true, cps "acme") := by
  refine ⟨by decide, by decide, by decide⟩

/-- C2 amended: the files the two functions skip silently are those whose
*open/read raises `OSError`* (modelled by `readable = false`): such a file
contributes nothing to the counts, its content is left unchanged and its
path never enters the written-files log.  Files that merely fail to decode
as UTF-8 are not skipped: they are read with `errors="ignore"` and
processed (see the counterexample).  No error is surfaced in either case —
both functions return normally. -/
theorem oserror_files_skipped_silently (fs : Entry) (files : List (List String))
    (old new : List Nat) (p : List String) (bs : List Nat)
    (hp : readFile fs p = some (false, bs)) :
    count_replacements fs (p :: files) old new = count_replacements fs files old new ∧
    readFile (replace_in_files fs files old new).1 p = some (false, bs) ∧
    p ∉ (replace_in_files fs files old new).2.2 := by
  refine ⟨?_, ?_⟩
  · unfold count_replacements
    by_cases h : old = new
    · rw [if_pos h, if_pos h]
    · rw [if_neg h, if_neg h]
      simp [crGo, fileCount, hp]
  · unfold replace_in_files
    by_cases h : old = new
    · rw [if_pos h]
      exact ⟨hp, by simp⟩
    · rw [if_neg h]
      have hfc : fileCount fs p old = 0 := by simp [fileCount, hp]
      obtain ⟨ha, hb⟩ := rifGo_skip old new files fs p hfc
      exact ⟨ha.trans hp, hb⟩

/-- C2 amended witness: an unreadable file among the processed list is
skipped by both functions. -/
theorem oserror_files_skipped_silently_witness :
    count_replacements (.dir [("u.txt", .file false [97]), ("v.txt", .file true [97])])
        [["u.txt"], ["v.txt"]] (cps "a") (cps "b") =
      count_replacements (.dir [("u.txt", .file false [97]), ("v.txt", .file true [97])])
        [["v.txt"]] (cps "a") (cps "b") ∧
    readFile (replace_in_files (.dir [("u.txt", .file false [97]), ("v.txt", .file true [97])])
        [["u.txt"], ["v.txt"]] (cps "a") (cps "b")).1 ["u.txt"] = some (false, [97]) ∧
    ["u.txt"] ∉ (replace_in_files (.dir [("u.txt", .file false [97]), ("v.txt", .file true [97])])
        [["u.txt"], ["v.txt"]] (cps "a") (cps "b")).2.2 := by
  have h := oserror_files_skipped_silently
    (.dir [("u.txt", .file false [97]), ("v.txt", .file true [97])])
    [["v.txt"]] (cps "a") (cps "b") ["u.txt"] [97] rfl
  exact ⟨h.1, h.2.1, h.2.2⟩

/-! ### Properties of the tree walk -/

/-- Membership in the per-directory file listing. -/
theorem mem_filesHere (cs : List (String × Entry)) (p : List String)
    (hp : p ∈ filesHere cs) :
    ∃ nm r bs, (nm, Entry.file r bs) ∈ cs ∧ isBinaryName nm = false ∧ p = [nm] := by
  unfold filesHere at hp
  obtain ⟨⟨nm, e⟩, hmem, hf⟩ := List.mem_filterMap.mp hp
  cases e with
  | file r bs =>
      simp only at hf
      by_cases hb : isBinaryName nm
      · rw [if_pos hb] at hf; simp at hf
      · rw [if_neg hb] at hf
        simp only [Option.some.injEq] at hf
        exact ⟨nm, r, bs, hmem, by simpa using hb, hf.symm⟩
  | dir cs₂ => simp at hf

/-- Membership in the subdirectory walk: every such path starts with the
name of a non-skipped subdirectory and continues with a path of its walk. -/
theorem mem_collectSub (cs : List (String × Entry)) (p : List String)
    (hp : p ∈ collectSub cs) :
    ∃ n cs₂ p', (n, Entry.dir cs₂) ∈ cs ∧ n ∉ SKIP_DIRS ∧ p = n :: p' ∧
      p' ∈ collectEntry (.dir cs₂) := by
  induction cs with
  | nil => simp [collectSub] at hp
  | cons hd rest ih =>
      obtain ⟨n, e⟩ := hd
      simp only [collectSub] at hp
      rcases List.mem_append.mp hp with hp | hp
      · cases e with
        | file r bs => simp at hp
        | dir cs₂ =>
            by_cases hskip : n ∈ SKIP_DIRS
            · rw [if_pos hskip] at hp; simp at hp
            · rw [if_neg hskip] at hp
              obtain ⟨p', hp', hpe⟩ := List.mem_map.mp hp
              exact ⟨n, cs₂, p', by simp, hskip, hpe.symm, hp'⟩
      · obtain ⟨n', cs₂, p', hmem, hskip, hpe, hp'⟩ := ih hp
        exact ⟨n', cs₂, p', List.mem_cons_of_mem _ hmem, hskip, hpe, hp'⟩

/-- C5: every path returned by `collect_text_files` consists of directory
components none of which is in `SKIP_DIRS` (skipped directories are never
descended into), followed by a file name whose lowered extension is not in
the binary denylist; hence no file under a skipped directory is ever
counted or rewritten. -/
theorem collect_text_files_skips (fs : Entry) :
    ∀ p ∈ collect_text_files fs, ∃ ds nm, p = ds ++ [nm] ∧
      (∀ d ∈ ds, d ∉ SKIP_DIRS) ∧ isBinaryName nm = false := by
  unfold collect_text_files
  induction fs using collectEntry.induct
  case motive_2 cs =>
    exact ∀ p ∈ collectSub cs, ∃ ds nm, p = ds ++ [nm] ∧
      (∀ d ∈ ds, d ∉ SKIP_DIRS) ∧ isBinaryName nm = false
  case case1 => intro p hp; simp [collectEntry] at hp
  case case2 cs ih =>
      intro p hp
      simp only [collectEntry] at hp
      rcases List.mem_append.mp hp with hp | hp
      · obtain ⟨nm, r, bs, _, hb, rfl⟩ := mem_filesHere cs p hp
        exact ⟨[], nm, rfl, by simp, hb⟩
      · exact ih p hp
  case case3 => intro p hp; simp [collectSub] at hp
  case case4 n e rest ihe ihrest =>
      intro p hp
      simp only [collectSub] at hp
      rcases List.mem_append.mp hp with hp | hp
      · cases e with
        | file r bs => simp at hp
        | dir cs₂ =>
            by_cases hskip : n ∈ SKIP_DIRS
            · rw [if_pos hskip] at hp; simp at hp
            · rw [if_neg hskip] at hp
              obtain ⟨p', hp', rfl⟩ := List.mem_map.mp hp
              obtain ⟨ds, nm, rfl, hds, hb⟩ := ihe p' hp'
              refine ⟨n :: ds, nm, by simp, ?_, hb⟩
              intro d hd
              rcases List.mem_cons.mp hd with rfl | hd
              · exact hskip
              · exact hds d hd
      · exact ihrest p hp

/-- C5 witness: a tree with a `.git` directory and a `.png` file; only the
ordinary text file survives the walk, and its decomposition satisfies the
invariant. -/
theorem collect_text_files_skips_witness :
    (collect_text_files (.dir [(".git", .dir [("hook", .file true [])]),
        ("img.png", .file true []), ("src", .dir [("m.sql", .file true [])])]) =
      [["src", "m.sql"]]) ∧
    (∃ ds nm, ["src", "m.sql"] = ds ++ [nm] ∧
      (∀ d ∈ ds, d ∉ SKIP_DIRS) ∧ isBinaryName nm = false) := by
  refine ⟨by decide, ?_⟩
  exact collect_text_files_skips
    (.dir [(".git", .dir [("hook", .file true [])]),
      ("img.png", .file true []), ("src", .dir [("m.sql", .file true [])])])
    ["src", "m.sql"] (by decide)

/-- Walked paths are never empty. -/
theorem collect_ne_nil (fs : Entry) : ∀ p ∈ collectEntry fs, p ≠ [] := by
  intro p hp he
  obtain ⟨ds, nm, hds, -, -⟩ := collect_text_files_skips fs p hp
  subst he
  simp at hds

/-- The per-directory file listing has no duplicates when the directory's
names are distinct. -/
theorem filesHere_nodup (cs : List (String × Entry))
    (h : (cs.map Prod.fst).Nodup) : (filesHere cs).Nodup := by
  induction cs with
  | nil => simp [filesHere]
  | cons hd rest ih =>
      obtain ⟨n, e⟩ := hd
      simp only [List.map_cons, List.nodup_cons] at h
      have hrest := ih h.2
      cases e with
      | dir cs₂ => simpa [filesHere] using hrest
      | file r bs =>
          by_cases hb : isBinaryName n
          · simpa [filesHere, hb] using hrest
          · simp only [filesHere, List.filterMap_cons] at hrest ⊢
            rw [if_neg (by simpa using hb)]
            refine List.nodup_cons.mpr ⟨?_, hrest⟩
            intro hmem
            obtain ⟨nm, r', bs', hmm, -, heq⟩ := mem_filesHere rest [n] hmem
            have hn : nm = n := by simpa using heq.symm
            subst hn
            exact h.1 (List.mem_map.mpr ⟨(nm, Entry.file r' bs'), hmm, rfl⟩)

/-- The walk of a well-formed tree lists every file path at most once. -/
theorem collect_nodup : ∀ fs : Entry, wfE fs = true → (collectEntry fs).Nodup := by
  intro fs
  induction fs using collectEntry.induct
  case motive_2 cs =>
    exact wfL cs = true → (cs.map Prod.fst).Nodup → (collectSub cs).Nodup
  case case1 => intro _; simp [collectEntry]
  case case2 cs ih =>
      intro hwf
      simp only [wfE, Bool.and_eq_true, decide_eq_true_eq] at hwf
      simp only [collectEntry]
      rw [List.nodup_append]
      refine ⟨filesHere_nodup cs hwf.1, ih hwf.2 hwf.1, ?_⟩
      intro p hp₁ hp₂
      obtain ⟨nm, r, bs, -, -, rfl⟩ := mem_filesHere cs p hp₁
      obtain ⟨n, cs₂, p', -, -, hpe, hp'⟩ := mem_collectSub cs _ hp₂
      have hne : p' ≠ [] := collect_ne_nil _ p' hp'
      have : p' = [] := by
        have := hpe
        simp only [List.cons.injEq] at this
        exact this.2.symm
      exact hne this
  case case3 => intro _ _; simp [collectSub]
  case case4 n e rest ihe ihrest =>
      intro hwfL hnames
      simp only [wfL, Bool.and_eq_true] at hwfL
      simp only [List.map_cons, List.nodup_cons] at hnames
      simp only [collectSub]
      cases e with
      | file r bs =>
          simpa using ihrest hwfL.2 hnames.2
      | dir cs₂ =>
          by_cases hskip : n ∈ SKIP_DIRS
          · simpa [hskip] using ihrest hwfL.2 hnames.2
          · rw [if_neg hskip, List.nodup_append]
            refine ⟨?_, ihrest hwfL.2 hnames.2, ?_⟩
            · exact (ihe hwfL.1).map (fun a b h => by
                simpa using (List.cons.injEq .. ▸ h : n :: a = n :: b))
            · intro p hp₁ hp₂
              obtain ⟨p', hp', rfl⟩ := List.mem_map.mp hp₁
              obtain ⟨n', cs₃, p'', hmem, -, hpe, -⟩ := mem_collectSub rest _ hp₂
              have hn : n = n' := by
                simpa using congrArg (fun l => l.head?) hpe
              exact hnames.1 (List.mem_map.mpr ⟨(n', Entry.dir cs₃), hmem, hn ▸ rfl⟩)

/-- C10: the binary-extension exclusion in `collect_text_files` is
case-insensitive: whether a file is kept depends exactly on whether the
lowered form of its `splitext` extension is in `BINARY_EXTENSIONS`; in
particular `.CSV` and `.Png` files are excluded exactly like `.csv` and
`.png`, while `.txt` files are kept. -/
theorem binary_extension_case_insensitive :
    (∀ (name : String) (r : Bool) (bs : List Nat),
      collect_text_files (.dir [(name, .file r bs)]) =
        if (extOf name.data).map Char.toLower ∈ BINARY_EXTENSIONS then [] else [[name]]) ∧
    collect_text_files (.dir [("a.CSV", .file true []), ("b.Png", .file true []),
      ("c.csv", .file true []), ("d.txt", .file true [])]) = [["d.txt"]] := by
  constructor
  · intro name r bs
    by_cases hb : (extOf name.data).map Char.toLower ∈ BINARY_EXTENSIONS
    · simp [collect_text_files, collectEntry, collectSub, filesHere, isBinaryName, hb]
    · simp [collect_text_files, collectEntry, collectSub, filesHere, isBinaryName, hb]
  · decide

/-- C1: for a well-formed tree and a pair with `old ≠ new`, the total
occurrence count `count_replacements` reports over the collected text files
equals the total `replace_in_files` actually replaces over the same
collection — occurrences are summed file by file on both sides, with no
double counting across files. -/
theorem dry_run_total_equals_applied_total (fs : Entry) (old new : List Nat)
    (hwf : wfE fs = true) (hne : old ≠ new) :
    (count_replacements fs (collect_text_files fs) old new).1 =
      (replace_in_files fs (collect_text_files fs) old new).2.1 :=
  (replace_total_eq_count_total fs _ old new (collect_nodup fs hwf)).symm

/-- C1 witness: on a concrete two-file tree the dry-run total and the
applied total agree (both are `3`). -/
theorem dry_run_total_equals_applied_total_witness :
    (count_replacements (.dir [("x.txt", .file true [97, 97]), ("y.txt", .file true [98, 97])])
        (collect_text_files (.dir [("x.txt", .file true [97, 97]),
          ("y.txt", .file true [98, 97])])) (cps "a") (cps "b")).1 =
      (replace_in_files (.dir [("x.txt", .file true [97, 97]), ("y.txt", .file true [98, 97])])
        (collect_text_files (.dir [("x.txt", .file true [97, 97]),
          ("y.txt", .file true [98, 97])])) (cps "a") (cps "b")).2.1 ∧
    (count_replacements (.dir [("x.txt", .file true [97, 97]), ("y.txt", .file true [98, 97])])
        (collect_text_files (.dir [("x.txt", .file true [97, 97]),
          ("y.txt", .file true [98, 97])])) (cps "a") (cps "b")).1 = 3 := by
  refine ⟨dry_run_total_equals_applied_total _ _ _ (by decide) (by decide), by decide⟩

/-- C6: on a file containing `"ci_cd_project"` twice and `"APP_DB"` once,
the dry run reports 2 occurrences in 1 file and 1 occurrence in 1 file, the
two applied replacements (performed sequentially, as `main` does) total 3,
and the final content holds no occurrence of either old token. -/
theorem example_file_replacements :
    count_replacements (.dir [("m.sql", .file true (cps "ci_cd_project APP_DB ci_cd_project"))])
        [["m.sql"]] (cps "ci_cd_project") (cps "acme") = (2, 1) ∧
    count_replacements (.dir [("m.sql", .file true (cps "ci_cd_project APP_DB ci_cd_project"))])
        [["m.sql"]] (cps "APP_DB") (cps "ACME_DB") = (1, 1) ∧
    (replace_in_files (.dir [("m.sql", .file true (cps "ci_cd_project APP_DB ci_cd_project"))])
          [["m.sql"]] (cps "ci_cd_project") (cps "acme")).2.1 +
      (replace_in_files
          (replace_in_files (.dir [("m.sql",
            .file true (cps "ci_cd_project APP_DB ci_cd_project"))])
            [["m.sql"]] (cps "ci_cd_project") (cps "acme")).1
          [["m.sql"]] (cps "APP_DB") (cps "ACME_DB")).2.1 = 3 ∧
    pyCount ((readText
        (replace_in_files
          (replace_in_files (.dir [("m.sql",
            .file true (cps "ci_cd_project APP_DB ci_cd_project"))])
            [["m.sql"]] (cps "ci_cd_project") (cps "acme")).1
          [["m.sql"]] (cps "APP_DB") (cps "ACME_DB")).1 ["m.sql"]).getD [])
      (cps "ci_cd_project") = 0 ∧
    pyCount ((readText
        (replace_in_files
          (replace_in_files (.dir [("m.sql",
            .file true (cps "ci_cd_project APP_DB ci_cd_project"))])
            [["m.sql"]] (cps "ci_cd_project") (cps "acme")).1
          [["m.sql"]] (cps "APP_DB") (cps "ACME_DB")).1 ["m.sql"]).getD [])
      (cps "APP_DB") = 0 := by
  refine ⟨by decide, by decide, by decide, by decide, by decide⟩

/-! ### Lemmas for `rename_path` (makedirs, remove, insert, move) -/

theorem findChild_filter_self (cs : List (String × Entry)) (n : String) :
    findChild (cs.filter (fun x => x.1 != n)) n = none := by
  induction cs with
  | nil => rfl
  | cons hd rest ih =>
      obtain ⟨m, c⟩ := hd
      by_cases hmn : m = n
      · subst hmn
        simpa [List.filter] using ih
      · have h1 : (m != n) = true := by simpa using hmn
        have h2 : (m == n) = false := beq_false_of_ne hmn
        simp only [List.filter, h1, findChild, List.find?, h2] at ih ⊢
        exact ih

theorem findChild_filter_ne (cs : List (String × Entry)) (n m : String) (h : m ≠ n) :
    findChild (cs.filter (fun x => x.1 != n)) m = findChild cs m := by
  induction cs with
  | nil => rfl
  | cons hd rest ih =>
      obtain ⟨k, c⟩ := hd
      by_cases hkn : k = n
      · subst hkn
        have h2 : (k == m) = false := beq_false_of_ne (fun he => h (he ▸ rfl))
        simp only [List.filter, bne_self_eq_false, findChild, List.find?, h2] at ih ⊢
        exact ih
      · have h1 : (k != n) = true := by simpa using hkn
        by_cases hkm : k = m
        · subst hkm
          simp [List.filter, h1, findChild, List.find?]
        · have h2 : (k == m) = false := beq_false_of_ne hkm
          simp only [List.filter, h1, findChild, List.find?, h2] at ih ⊢
          exact ih

theorem findChild_append (cs ds : List (String × Entry)) (m : String) :
    findChild (cs ++ ds) m = (findChild cs m).orElse (fun _ => findChild ds m) := by
  unfold findChild
  rw [List.find?_append]
  cases List.find? (fun x => x.1 == m) cs <;> simp

theorem updateChild_of_none (cs : List (String × Entry)) (n : String)
    (f : Entry → Entry) (h : findChild cs n = none) : updateChild cs n f = cs := by
  induction cs with
  | nil => rfl
  | cons hd rest ih =>
      obtain ⟨m, c⟩ := hd
      by_cases hmn : m = n
      · subst hmn
        simp [findChild, List.find?] at h
      · have h2 : (m == n) = false := beq_false_of_ne hmn
        simp only [findChild, List.find?, h2] at h ih
        simp [updateChild, hmn, ih h]

/-- Every prefix of an existing path exists. -/
theorem lookup_isSome_of_prefix :
    ∀ (q p : List String) (fs : Entry), q <+: p → (lookup fs p).isSome →
      (lookup fs q).isSome := by
  intro q
  induction q with
  | nil => intro p fs _ _; simp [lookup]
  | cons n qrest ih =>
      intro p fs hq hp
      obtain ⟨t, rfl⟩ := hq
      cases fs with
      | file r b => simp [lookup] at hp
      | dir cs =>
          simp only [List.cons_append, lookup] at hp ⊢
          match hfc : findChild cs n with
          | none => rw [hfc] at hp; simpa using hp
          | some c => rw [hfc] at hp; exact ih (qrest ++ t) c ⟨t, rfl⟩ hp

/-- Executable check that no component along a path already exists as a
file — exactly the condition under which `os.makedirs(path, exist_ok=True)`
succeeds on the modelled tree. -/
def noFileOnChain : Entry → List String → Bool
  | .dir _, [] => true
  | .file _ _, _ => false
  | .dir cs, n :: rest =>
      match findChild cs n with
      | some c => noFileOnChain c rest
      | none => true

/-- Creating a directory chain inside an empty directory always succeeds. -/
theorem makedirs_empty : ∀ rest : List String, ∃ c', makedirs (.dir []) rest = some c' := by
  intro rest
  induction rest with
  | nil => exact ⟨.dir [], rfl⟩
  | cons n rest ih =>
      obtain ⟨c', h⟩ := ih
      exact ⟨.dir [(n, c')], by simp [makedirs, findChild, List.find?, h]⟩

/-- `makedirs` succeeds whenever no chain component is an existing file. -/
theorem makedirs_isSome : ∀ (d : List String) (fs : Entry),
    noFileOnChain fs d = true → ∃ fs1, makedirs fs d = some fs1 := by
  intro d
  induction d with
  | nil =>
      intro fs h
      cases fs with
      | file r b => simp [noFileOnChain] at h
      | dir cs => exact ⟨.dir cs, rfl⟩
  | cons n rest ih =>
      intro fs h
      cases fs with
      | file r b => simp [noFileOnChain] at h
      | dir cs =>
          simp only [noFileOnChain] at h
          match hfc : findChild cs n with
          | some c =>
              rw [hfc] at h
              obtain ⟨c', hc'⟩ := ih c h
              exact ⟨.dir (updateChild cs n (fun _ => c')),
                by simp [makedirs, hfc, hc']⟩
          | none =>
              obtain ⟨c', hc'⟩ := makedirs_empty rest
              exact ⟨.dir (cs ++ [(n, c')]), by simp [makedirs, hfc, hc']⟩

/-- `makedirs` changes nothing outside the created chain: every path that is
not a prefix of the chain reads back identically. -/
theorem makedirs_pres : ∀ (d : List String) (fs fs1 : Entry),
    makedirs fs d = some fs1 → ∀ p, ¬ p <+: d → lookup fs1 p = lookup fs p := by
  intro d
  induction d with
  | nil =>
      intro fs fs1 hmk p _
      cases fs with
      | file r b => simp [makedirs] at hmk
      | dir cs =>
          simp only [makedirs, Option.some.injEq] at hmk
          rw [← hmk]
  | cons n rest ih =>
      intro fs fs1 hmk p hp
      cases fs with
      | file r b => simp [makedirs] at hmk
      | dir cs =>
          simp only [makedirs] at hmk
          cases p with
          | nil => exact absurd ( List.nil_prefix) hp
          | cons m prest =>
              have hpr : m = n → ¬ prest <+: rest := by
                intro he hpre
                exact hp (he ▸ (List.cons_prefix_cons.mpr ⟨rfl, hpre⟩))
              match hfc : findChild cs n with
              | some c =>
                  rw [hfc] at hmk
                  replace hmk : Option.map
                      (fun c' => Entry.dir (updateChild cs n fun _ => c'))
                      (makedirs c rest) = some fs1 := hmk
                  rw [Option.map_eq_some'] at hmk
                  obtain ⟨c', hmc, hfs1⟩ := hmk
                  subst hfs1
                  by_cases hmn : m = n
                  · subst hmn
                    simp only [lookup, findChild_updateChild_self, hfc, Option.map_some]
                    exact ih c c' hmc prest (hpr rfl)
                  · simp only [lookup, findChild_updateChild_ne cs n m _ hmn]
              | none =>
                  rw [hfc] at hmk
                  replace hmk : Option.map
                      (fun c' => Entry.dir (cs ++ [(n, c')]))
                      (makedirs (.dir []) rest) = some fs1 := hmk
                  rw [Option.map_eq_some'] at hmk
                  obtain ⟨c', hmc, hfs1⟩ := hmk
                  subst hfs1
                  by_cases hmn : m = n
                  · subst hmn
                    have hpre : ¬ prest <+: rest := hpr rfl
                    have hprest : prest ≠ [] := by
                      intro he
                      exact hpre (he ▸ List.nil_prefix)
                    have h3 : findChild [(m, c')] m = some c' := by
                      simp [findChild, List.find?]
                    have hL : lookup (Entry.dir (cs ++ [(m, c')])) (m :: prest) =
                        lookup c' prest := by
                      simp only [lookup, findChild_append, hfc, h3]
                      rfl
                    have hR : lookup (Entry.dir cs) (m :: prest) = none := by
                      simp only [lookup, hfc]
                    rw [hL, hR, ih (.dir []) c' hmc prest hpre]
                    cases prest with
                    | nil => exact absurd rfl hprest
                    | cons a as => rfl
                  · have h2 : (n == m) = false := beq_false_of_ne (fun he => hmn (he ▸ rfl))
                    have h3 : findChild [(n, c')] m = none := by
                      simp [findChild, List.find?, h2]
                    have hA : findChild (cs ++ [(n, c')]) m = findChild cs m := by
                      rw [findChild_append, h3]
                      cases findChild cs m <;> rfl
                    simp only [lookup, hA]

/-- After a successful `makedirs`, every prefix of the chain is a directory. -/
theorem makedirs_chain : ∀ (d : List String) (fs fs1 : Entry),
    makedirs fs d = some fs1 → ∀ q, q <+: d → ∃ cs', lookup fs1 q = some (.dir cs') := by
  intro d
  induction d with
  | nil =>
      intro fs fs1 hmk q hq
      cases fs with
      | file r b => simp [makedirs] at hmk
      | dir cs =>
          simp only [makedirs, Option.some.injEq] at hmk
          rw [List.prefix_nil.mp hq, ← hmk]
          exact ⟨cs, rfl⟩
  | cons n rest ih =>
      intro fs fs1 hmk q hq
      cases fs with
      | file r b => simp [makedirs] at hmk
      | dir cs =>
          simp only [makedirs] at hmk
          match hfc : findChild cs n with
          | some c =>
              rw [hfc] at hmk
              replace hmk : Option.map
                  (fun c' => Entry.dir (updateChild cs n fun _ => c'))
                  (makedirs c rest) = some fs1 := hmk
              rw [Option.map_eq_some'] at hmk
              obtain ⟨c', hmc, hfs1⟩ := hmk
              subst hfs1
              cases q with
              | nil => exact ⟨_, rfl⟩
              | cons m qrest =>
                  obtain ⟨rfl, hqr⟩ := List.cons_prefix_cons.mp hq
                  simp only [lookup, findChild_updateChild_self, hfc, Option.map_some]
                  exact ih c c' hmc qrest hqr
          | none =>
              rw [hfc] at hmk
              replace hmk : Option.map
                  (fun c' => Entry.dir (cs ++ [(n, c')]))
                  (makedirs (.dir []) rest) = some fs1 := hmk
              rw [Option.map_eq_some'] at hmk
              obtain ⟨c', hmc, hfs1⟩ := hmk
              subst hfs1
              cases q with
              | nil => exact ⟨_, rfl⟩
              | cons m qrest =>
                  obtain ⟨rfl, hqr⟩ := List.cons_prefix_cons.mp hq
                  simp only [lookup, findChild_append, hfc, Option.orElse]
                  simp only [findChild, List.find?, beq_self_eq_true, Option.map_some]
                  exact ih (.dir []) c' hmc qrest hqr

/-- Removal changes nothing at paths unrelated to the removed one. -/
theorem removeAt_pres : ∀ (p : List String) (fs : Entry) (q : List String),
    ¬ p <+: q → ¬ q <+: p → lookup (removeAt fs p) q = lookup fs q := by
  intro p
  induction p with
  | nil => intro fs q hp _; exact absurd List.nil_prefix hp
  | cons n prest ih =>
      intro fs q hp hq
      cases fs with
      | file r b => cases prest <;> rfl
      | dir cs =>
          cases q with
          | nil => exact absurd List.nil_prefix hq
          | cons m qrest =>
              by_cases hmn : m = n
              · subst hmn
                have hp' : ¬ prest <+: qrest :=
                  fun h => hp (List.cons_prefix_cons.mpr ⟨rfl, h⟩)
                have hq' : ¬ qrest <+: prest :=
                  fun h => hq (List.cons_prefix_cons.mpr ⟨rfl, h⟩)
                cases prest with
                | nil => exact absurd List.nil_prefix hp'
                | cons a as =>
                    simp only [removeAt, lookup, findChild_updateChild_self]
                    cases hfc : findChild cs m with
                    | none => rfl
                    | some c => exact ih c qrest hp' hq'
              · cases prest with
                | nil => simp only [removeAt, lookup, findChild_filter_ne cs n m hmn]
                | cons a as =>
                    simp only [removeAt, lookup, findChild_updateChild_ne cs n m _ hmn]

/-- Removing an existing path empties it. -/
theorem removeAt_self : ∀ (p : List String) (fs : Entry), p ≠ [] →
    (lookup fs p).isSome → lookup (removeAt fs p) p = none := by
  intro p
  induction p with
  | nil => intro fs h _; exact absurd rfl h
  | cons n prest ih =>
      intro fs _ hs
      cases fs with
      | file r b => simp [lookup] at hs
      | dir cs =>
          cases prest with
          | nil => simp only [removeAt, lookup, findChild_filter_self]
          | cons a as =>
              simp only [lookup] at hs
              obtain ⟨c, hfc⟩ : ∃ c, findChild cs n = some c := by
                cases hx : findChild cs n with
                | none => rw [hx] at hs; simp at hs
                | some c => exact ⟨c, rfl⟩
              rw [hfc] at hs
              replace hs : (lookup c (a :: as)).isSome := hs
              simp only [removeAt, lookup, findChild_updateChild_self, hfc,
                Option.map_some']
              exact ih c (by simp) hs

/-- Removal keeps directories that are not inside the removed subtree
directories. -/
theorem removeAt_dir : ∀ (q : List String) (fs : Entry) (p : List String),
    ¬ p <+: q → (∃ cs, lookup fs q = some (.dir cs)) →
    ∃ cs', lookup (removeAt fs p) q = some (.dir cs') := by
  intro q
  induction q with
  | nil =>
      intro fs p _ hdir
      obtain ⟨cs, hcs⟩ := hdir
      simp only [lookup, Option.some.injEq] at hcs
      subst hcs
      match p with
      | [] => exact ⟨cs, rfl⟩
      | [n] => exact ⟨_, rfl⟩
      | n :: a :: as => exact ⟨_, rfl⟩
  | cons m qrest ih =>
      intro fs p hp hdir
      obtain ⟨cs₂, hcs⟩ := hdir
      cases fs with
      | file r b => simp [lookup] at hcs
      | dir cs =>
          simp only [lookup] at hcs
          obtain ⟨c, hfc⟩ : ∃ c, findChild cs m = some c := by
            cases hx : findChild cs m with
            | none => rw [hx] at hcs; simp at hcs
            | some c => exact ⟨c, rfl⟩
          rw [hfc] at hcs
          replace hcs : lookup c qrest = some (.dir cs₂) := hcs
          match p with
          | [] => exact ⟨cs₂, by simp only [removeAt, lookup, hfc]; exact hcs⟩
          | [n] =>
              by_cases hmn : n = m
              · subst hmn
                exact absurd (List.cons_prefix_cons.mpr ⟨rfl, List.nil_prefix⟩) hp
              · refine ⟨cs₂, ?_⟩
                simp only [removeAt, lookup, findChild_filter_ne cs n m (fun h => hmn h.symm)]
                rw [hfc]
                exact hcs
          | n :: a :: as =>
              by_cases hmn : n = m
              · subst hmn
                have hp' : ¬ (a :: as) <+: qrest :=
                  fun h => hp (List.cons_prefix_cons.mpr ⟨rfl, h⟩)
                obtain ⟨cs', hcs'⟩ := ih c (a :: as) hp' ⟨cs₂, hcs⟩
                refine ⟨cs', ?_⟩
                simp only [removeAt, lookup, findChild_updateChild_self, hfc,
                  Option.map_some']
                exact hcs'
              · refine ⟨cs₂, ?_⟩
                simp only [removeAt, lookup,
                  findChild_updateChild_ne cs n m _ (fun h => hmn h.symm)]
                rw [hfc]
                exact hcs

/-- Inserting at a path whose proper prefixes are all directories places the
entry exactly there. -/
theorem insertAt_self : ∀ (p : List String) (fs : Entry) (sub : Entry),
    (∀ q, q <+: p → q ≠ p → ∃ cs, lookup fs q = some (.dir cs)) →
    lookup (insertAt fs p sub) p = some sub := by
  intro p
  induction p with
  | nil => intro fs sub _; cases fs <;> simp [insertAt, lookup]
  | cons n prest ih =>
      intro fs sub hdirs
      obtain ⟨cs, hfs⟩ := hdirs [] List.nil_prefix (by simp)
      simp only [lookup, Option.some.injEq] at hfs
      subst hfs
      cases prest with
      | nil =>
          have h3 : findChild (cs.filter (fun x => x.1 != n) ++ [(n, sub)]) n = some sub := by
            rw [findChild_append, findChild_filter_self]
            simp [findChild, List.find?]
          simp only [insertAt, lookup, h3]
      | cons a as =>
          obtain ⟨cs₂, hc⟩ := hdirs [n] (List.cons_prefix_cons.mpr ⟨rfl, List.nil_prefix⟩)
            (by simp)
          simp only [lookup] at hc
          obtain ⟨c, hfc⟩ : ∃ c, findChild cs n = some c := by
            cases hx : findChild cs n with
            | none => rw [hx] at hc; simp at hc
            | some c => exact ⟨c, rfl⟩
          rw [hfc] at hc
          replace hc : (some c : Option Entry) = some (Entry.dir cs₂) := hc
          simp only [Option.some.injEq] at hc
          subst hc
          simp only [insertAt, lookup, findChild_updateChild_self, hfc, Option.map_some']
          apply ih
          intro q hq hqne
          have := hdirs (n :: q) (List.cons_prefix_cons.mpr ⟨rfl, hq⟩)
            (by simpa using hqne)
          obtain ⟨cs₃, hcs₃⟩ := this
          refine ⟨cs₃, ?_⟩
          simp only [lookup, hfc] at hcs₃
          exact hcs₃

/-- Insertion changes nothing at paths unrelated to the inserted one. -/
theorem insertAt_pres : ∀ (p : List String) (fs sub : Entry) (q : List String),
    ¬ p <+: q → ¬ q <+: p → lookup (insertAt fs p sub) q = lookup fs q := by
  intro p
  induction p with
  | nil => intro fs sub q hp _; exact absurd List.nil_prefix hp
  | cons n prest ih =>
      intro fs sub q hp hq
      cases fs with
      | file r b => cases prest <;> rfl
      | dir cs =>
          cases q with
          | nil => exact absurd List.nil_prefix hq
          | cons m qrest =>
              by_cases hmn : m = n
              · subst hmn
                have hp' : ¬ prest <+: qrest :=
                  fun h => hp (List.cons_prefix_cons.mpr ⟨rfl, h⟩)
                have hq' : ¬ qrest <+: prest :=
                  fun h => hq (List.cons_prefix_cons.mpr ⟨rfl, h⟩)
                cases prest with
                | nil => exact absurd List.nil_prefix hp'
                | cons a as =>
                    simp only [insertAt, lookup, findChild_updateChild_self]
                    cases hfc : findChild cs m with
                    | none => rfl
                    | some c => exact ih c sub qrest hp' hq'
              · cases prest with
                | nil =>
                    have h3 : findChild [(n, sub)] m = none := by
                      have hbeq : (n == m) = false :=
                        beq_false_of_ne (fun he => hmn he.symm)
                      simp [findChild, List.find?, hbeq]
                    have hA : findChild (cs.filter (fun x => x.1 != n) ++ [(n, sub)]) m =
                        findChild cs m := by
                      rw [findChild_append, h3, findChild_filter_ne cs n m hmn]
                      cases findChild cs m <;> rfl
                    simp only [insertAt, lookup, hA]
                | cons a as =>
                    simp only [insertAt, lookup, findChild_updateChild_ne cs n m _ hmn]

/-- A strict prefix is a prefix of `dropLast`. -/
theorem prefix_dropLast_of_strict {q p : List String} (h : q <+: p) (hne : q ≠ p) :
    q <+: p.dropLast := by
  obtain ⟨t, rfl⟩ := h
  have ht : t ≠ [] := by
    intro he
    subst he
    simp at hne
  rw [List.dropLast_append_of_ne_nil _ ht]
  exact ⟨t.dropLast, rfl⟩

/-- C4 counterexample: renaming `a` to `b` when `b` is an existing directory
returns `True` but does **not** move `a` to the path `b` — `shutil.move`
places it *inside* `b` (at `b/a`), and `b` still holds the old directory. -/
theorem rename_path_into_dir_cex :
    rename_path (.dir [("a", .file true [1]), ("b", .dir [("c", .file true [2])])])
        ["a"] ["b"] =
      some (.dir [("b", .dir [("c", .file true [2]), ("a", .file true [1])])], true) ∧
    lookup (.dir [("b", .dir [("c", .file true [2]), ("a", .file true [1])])])
      ["b", "a"] = some (.file true [1]) ∧
    lookup (.dir [("b", .dir [("c", .file true [2]), ("a", .file true [1])])]) ["b"] ≠
      lookup (.dir [("a", .file true [1]), ("b", .dir [("c", .file true [2])])]) ["a"] := by
  refine ⟨rfl, rfl, ?_⟩
  intro h
  simp [lookup, findChild, List.find?] at h

/-- C4 amended: `rename_path` is a no-op returning `False` when the names
are equal or the old path is missing; and when `old ≠ new`, the old path
exists, the new path does not exist, no component on the way to the new
path's parent is an existing file, and the old path is not a prefix of the
new one, it creates the missing parent directories, moves the entry of the
old path to the new path and returns `True`.  (Without those provisos the
move can land *inside* an existing directory, overwrite an existing file,
or raise.) -/
theorem rename_path_spec (fs : Entry) (old new : List String) (sub : Entry)
    (h1 : old ≠ new)
    (h2 : lookup fs old = some sub)
    (h5 : lookup fs new = none)
    (h4 : noFileOnChain fs new.dropLast = true)
    (h6 : old.isPrefixOf new = false) :
    (∀ fs₀ p, rename_path fs₀ p p = some (fs₀, false)) ∧
    (∀ fs₀ p₁ p₂, p₁ ≠ p₂ → lookup fs₀ p₁ = none →
      rename_path fs₀ p₁ p₂ = some (fs₀, false)) ∧
    ∃ fs', rename_path fs old new = some (fs', true) ∧
      lookup fs' new = some sub ∧ lookup fs' old = none := by
  refine ⟨fun fs₀ p => by simp [rename_path], ?_, ?_⟩
  · intro fs₀ p₁ p₂ hne hnone
    simp [rename_path, hne, hnone]
  · have hp6 : ¬ old <+: new := fun h =>
      absurd ( List.isPrefixOf_iff_prefix.mpr h) (by simp [h6])
    have hold_ne : old ≠ [] := fun he => hp6 (he ▸ List.nil_prefix)
    have hnew_ne : new ≠ [] := by
      intro he
      subst he
      simp [lookup] at h5
    have ho_dl : ¬ old <+: new.dropLast := fun h => hp6 (h.trans ( List.dropLast_prefix new))
    have hn_dl : ¬ new <+: new.dropLast := by
      intro h
      have hlen := h.length_le
      rw [List.length_dropLast] at hlen
      have : 0 < new.length := List.length_pos.mpr hnew_ne
      omega
    obtain ⟨fs1, hmk⟩ := makedirs_isSome new.dropLast fs h4
    have hfs1old : lookup fs1 old = some sub := by
      rw [makedirs_pres _ fs fs1 hmk old ho_dl]
      exact h2
    have hfs1new : lookup fs1 new = none := by
      rw [makedirs_pres _ fs fs1 hmk new hn_dl]
      exact h5
    have hmove : shutilMove fs1 old new = some (insertAt (removeAt fs1 old) new sub) := by
      unfold shutilMove
      rw [hfs1old, hfs1new]
      simp [h6]
    have hrp : rename_path fs old new =
        some (insertAt (removeAt fs1 old) new sub, true) := by
      have hstep : rename_path fs old new =
          (match shutilMove fs1 old new with
           | none => none
           | some fs2 => some (fs2, true)) := by
        unfold rename_path
        rw [if_neg h1, h2, hmk]
        rfl
      rw [hstep, hmove]
    refine ⟨insertAt (removeAt fs1 old) new sub, hrp, ?_, ?_⟩
    · apply insertAt_self
      intro q hq hqne
      have hq_dl : q <+: new.dropLast := prefix_dropLast_of_strict hq hqne
      have hdir1 := makedirs_chain _ fs fs1 hmk q hq_dl
      have hno : ¬ old <+: q := fun h => hp6 (h.trans hq)
      exact removeAt_dir q fs1 old hno hdir1
    · have hrm : lookup (removeAt fs1 old) old = none :=
        removeAt_self old fs1 hold_ne (by simp [hfs1old])
      have hno2 : ¬ new <+: old := by
        intro h
        have : (lookup fs new).isSome :=
          lookup_isSome_of_prefix new old fs h (by simp [h2])
        simp [h5] at this
      rw [insertAt_pres new (removeAt fs1 old) sub old hno2 hp6]
      exact hrm

/-- C4 amended witness: moving `a` to the fresh nested path `d/b` creates
`d` and lands the file at `d/b`; same-name and missing-source renames are
no-ops returning `False`. -/
theorem rename_path_spec_witness :
    (rename_path (.dir [("a", .file true [1])]) ["x"] ["x"] =
      some (.dir [("a", .file true [1])], false)) ∧
    (rename_path (.dir [("a", .file true [1])]) ["z"] ["w"] =
      some (.dir [("a", .file true [1])], false)) ∧
    ∃ fs', rename_path (.dir [("a", .file true [1])]) ["a"] ["d", "b"] =
        some (fs', true) ∧
      lookup fs' ["d", "b"] = some (.file true [1]) ∧ lookup fs' ["a"] = none := by
  have h := rename_path_spec (.dir [("a", .file true [1])]) ["a"] ["d", "b"]
    (.file true [1]) (by decide) rfl rfl (by decide) (by decide)
  exact ⟨h.1 _ _, h.2.1 _ ["z"] ["w"] (by decide) rfl, h.2.2⟩

/-! ### The interactive driver `main`

The model covers `main` from the prompts through the replacement phase: it
builds the replacement and rename plans from the six prompted values
(defaulting exactly as `prompt_values` does), filters no-ops, returns early
when nothing is to change, asks for confirmation, aborts on a non-empty
answer other than `y`, and otherwise applies the directory renames, then the
file renames, re-collects the text files, and applies the content
replacements.  The subsequent git interaction and the optional self-delete
prompt shell out after the phases the claims are about and are not
modelled.  The event trace is ghost instrumentation: one event per prompt,
per performed rename and per rewritten file, plus a marker for the re-scan
of the tree.  A `none` result models an uncaught exception from
`rename_path` (the state after a crash is not specified). -/

/-- Observable steps of a `main` run. -/
inductive Event where
  | promptValue (label : String)
  | promptConfirm
  | renamed (old new : List String)
  | recollected
  | wroteFile (path : List String)
deriving DecidableEq

/-- The confirmation prompt. -/
def isConfirm : Event → Bool
  | .promptConfirm => true
  | _ => false

/-- Events that mutate the file tree. -/
def isMutation : Event → Bool
  | .renamed _ _ => true
  | .wroteFile _ => true
  | _ => false

/-- The six interactive answers plus the confirmation answer. -/
structure Inputs where
  project_name : String
  author_name : String
  organization : String
  app_database : String
  ci_database : String
  warehouse_name : String
  confirm : String

/-- `prompt_values` for one key: the stripped input, or the default when the
stripped input is empty. -/
def promptValue (raw default : String) : String :=
  if pyStrip raw = "" then default else pyStrip raw

/-- Apply `rename_path` to each pair in order, logging the renames that
returned `True`; a raised exception (`none`) aborts the run. -/
def applyRenames : Entry → List (List String × List String) → Option Entry × List Event
  | fs, [] => (some fs, [])
  | fs, (o, n) :: rest =>
      match rename_path fs o n with
      | none => (none, [])
      | some (fs', b) =>
          let t := applyRenames fs' rest
          (t.1, (if b then [Event.renamed o n] else []) ++ t.2)

/-- Apply `replace_in_files` for each pair in order over the same file list,
accumulating the total and logging each rewritten file. -/
def applyReplacements :
    Entry → List (List String) → List (String × String × String) →
      Entry × Nat × List Event
  | fs, _, [] => (fs, 0, [])
  | fs, files, (old, new, _) :: rest =>
      let r := replace_in_files fs files (cps old) (cps new)
      let t := applyReplacements r.1 files rest
      (t.1, r.2.1 + t.2.1, r.2.2.map Event.wroteFile ++ t.2.2)

/-- The prompt events of a run, in order. -/
def promptEvents : List Event :=
  [.promptValue "Project name (dbt_project.yml)", .promptValue "Author name",
   .promptValue "Organization", .promptValue "Application database",
   .promptValue "CI/utilities database", .promptValue "Warehouse name"]

/-- `main` from the prompts through the replacement phase. -/
def mainModel (inp : Inputs) (fs : Entry) : Option Entry × List Event :=
  let vProject := promptValue inp.project_name "ci_cd_project"
  let vAuthor := promptValue inp.author_name "Anouar Zbaida"
  let vOrg := promptValue inp.organization "Crithink"
  let vApp := promptValue inp.app_database "APP_DB"
  let vCi := promptValue inp.ci_database "_DB_UTILS"
  let vWh := promptValue inp.warehouse_name "ANALYTICS_WH"
  let replacements :=
    ([("ci_cd_project", vProject, "project name"),
      ("Anouar Zbaida", vAuthor, "author name"),
      ("Crithink", vOrg, "organization"),
      ("APP_DB", vApp, "application database"),
      ("_DB_UTILS", vCi, "CI/utilities database"),
      ("ANALYTICS_WH", vWh, "warehouse name")] :
        List (String × String × String)).filter (fun x => x.1 != x.2.1)
  let dirRenames :=
    ([(["ddls", "APP_DB"], ["ddls", vApp]),
      (["ddls", "_DB_UTILS"], ["ddls", vCi])] :
        List (List String × List String)).filter (fun x => x.1 != x.2)
  let fileRenames :=
    ([(["ddls", "_account", "databases", "APP_DB.sql"],
       ["ddls", "_account", "databases", vApp ++ ".sql"]),
      (["ddls", "_account", "databases", "_DB_UTILS.sql"],
       ["ddls", "_account", "databases", vCi ++ ".sql"]),
      (["ddls", "_account", "warehouses", "ANALYTICS_WH.sql"],
       ["ddls", "_account", "warehouses", vWh ++ ".sql"])] :
        List (List String × List String)).filter (fun x => x.1 != x.2)
  if replacements = [] ∧ dirRenames = [] ∧ fileRenames = [] then
    (some fs, promptEvents)
  else
    -- dry-run summary: per-pair counts over the pre-rename collection (reads only)
    let textFiles := collect_text_files fs
    let _dryRun := replacements.map
      (fun x => count_replacements fs textFiles (cps x.1) (cps x.2.1))
    let evs1 := promptEvents ++ [Event.promptConfirm]
    let ans := pyLower (pyStrip inp.confirm)
    if ans ≠ "" ∧ ans ≠ "y" then (some fs, evs1)
    else
      match applyRenames fs dirRenames with
      | (none, tr1) => (none, evs1 ++ tr1)
      | (some fsA, tr1) =>
          match applyRenames fsA fileRenames with
          | (none, tr2) => (none, evs1 ++ tr1 ++ tr2)
          | (some fsB, tr2) =>
              let files2 := collect_text_files fsB
              let res := applyReplacements fsB files2 replacements
              (some res.1, evs1 ++ tr1 ++ tr2 ++ [Event.recollected] ++ res.2.2)

/-- The rename phase logs only rename events. -/
theorem applyRenames_events : ∀ (rs : List (List String × List String)) (fs : Entry),
    ∀ e ∈ (applyRenames fs rs).2, ∃ o n, e = .renamed o n := by
  intro rs
  induction rs with
  | nil => intro fs e he; simp [applyRenames] at he
  | cons hd rest ih =>
      intro fs e he
      obtain ⟨o, n⟩ := hd
      simp only [applyRenames] at he
      match hrp : rename_path fs o n with
      | none => rw [hrp] at he; simp at he
      | some (fs', b) =>
          rw [hrp] at he
          replace he : e ∈ ((if b then [Event.renamed o n] else []) ++
              (applyRenames fs' rest).2) := he
          rcases List.mem_append.mp he with he | he
          · cases b with
            | true => exact ⟨o, n, by simpa using he⟩
            | false => simp at he
          · exact ih fs' e he

/-- The replacement phase logs only file-write events. -/
theorem applyReplacements_events :
    ∀ (reps : List (String × String × String)) (fs : Entry) (files : List (List String)),
      ∀ e ∈ (applyReplacements fs files reps).2.2, ∃ p, e = .wroteFile p := by
  intro reps
  induction reps with
  | nil => intro fs files e he; simp [applyReplacements] at he
  | cons hd rest ih =>
      intro fs files e he
      obtain ⟨old, new, label⟩ := hd
      simp only [applyReplacements] at he
      rcases List.mem_append.mp he with he | he
      · obtain ⟨p, -, hpe⟩ := List.mem_map.mp he
        exact ⟨p, hpe.symm⟩
      · exact ih _ files e he

/-- Shape of a `main` trace: the prompts alone (nothing to change), the
prompts plus the confirmation (abort), or prompts, confirmation, renames,
and then — unless a rename raised — the re-scan marker followed by file
writes. -/
theorem mainModel_shape (inp : Inputs) (fs : Entry) :
    (mainModel inp fs).2 = promptEvents ∨
    (mainModel inp fs).2 = promptEvents ++ [Event.promptConfirm] ∨
    (∃ A W, (mainModel inp fs).2 = (promptEvents ++ [Event.promptConfirm]) ++ (A ++ W) ∧
      (∀ e ∈ A, ∃ o n, e = .renamed o n) ∧
      (W = [] ∨ (∃ W', W = Event.recollected :: W' ∧ ∀ e ∈ W', ∃ p, e = .wroteFile p))) := by
  unfold mainModel
  dsimp only
  split
  · exact Or.inl rfl
  · split
    · exact Or.inr (Or.inl rfl)
    · match h1 : applyRenames fs (List.filter (fun x => x.1 != x.2)
          [(["ddls", "APP_DB"], ["ddls", promptValue inp.app_database "APP_DB"]),
           (["ddls", "_DB_UTILS"], ["ddls", promptValue inp.ci_database "_DB_UTILS"])]) with
      | (none, tr1) =>
          refine Or.inr (Or.inr ⟨tr1, [], ?_, ?_, Or.inl rfl⟩)
          · simp [h1]
          · intro e he
            have := applyRenames_events _ fs e (by rw [h1]; exact he)
            exact this
      | (some fsA, tr1) =>
          match h2 : applyRenames fsA (List.filter (fun x => x.1 != x.2)
              [(["ddls", "_account", "databases", "APP_DB.sql"],
                ["ddls", "_account", "databases", promptValue inp.app_database "APP_DB" ++ ".sql"]),
               (["ddls", "_account", "databases", "_DB_UTILS.sql"],
                ["ddls", "_account", "databases", promptValue inp.ci_database "_DB_UTILS" ++ ".sql"]),
               (["ddls", "_account", "warehouses", "ANALYTICS_WH.sql"],
                ["ddls", "_account", "warehouses",
                  promptValue inp.warehouse_name "ANALYTICS_WH" ++ ".sql"])]) with
          | (none, tr2) =>
              refine Or.inr (Or.inr ⟨tr1 ++ tr2, [], ?_, ?_, Or.inl rfl⟩)
              · simp [h1, h2, List.append_assoc]
              · intro e he
                rcases List.mem_append.mp he with he | he
                · exact applyRenames_events _ fs e (by rw [h1]; exact he)
                · exact applyRenames_events _ fsA e (by rw [h2]; exact he)
          | (some fsB, tr2) =>
              refine Or.inr (Or.inr ⟨tr1 ++ tr2,
                Event.recollected :: (applyReplacements fsB (collect_text_files fsB)
                  (List.filter (fun x => x.1 != x.2.1)
                    [("ci_cd_project", promptValue inp.project_name "ci_cd_project",
                      "project name"),
                     ("Anouar Zbaida", promptValue inp.author_name "Anouar Zbaida",
                      "author name"),
                     ("Crithink", promptValue inp.organization "Crithink", "organization"),
                     ("APP_DB", promptValue inp.app_database "APP_DB",
                      "application database"),
                     ("_DB_UTILS", promptValue inp.ci_database "_DB_UTILS",
                      "CI/utilities database"),
                     ("ANALYTICS_WH", promptValue inp.warehouse_name "ANALYTICS_WH",
                      "warehouse name")])).2.2,
                ?_, ?_, Or.inr ⟨_, rfl, ?_⟩⟩)
              · simp [h1, h2, List.append_assoc]
              · intro e he
                rcases List.mem_append.mp he with he | he
                · exact applyRenames_events _ fs e (by rw [h1]; exact he)
                · exact applyRenames_events _ fsA e (by rw [h2]; exact he)
              · intro e he
                exact applyReplacements_events _ fsB _ e he

/-- The pre-confirmation prefix of any trace that reaches the confirmation
prompt is exactly the six value prompts. -/
theorem takeWhile_prompts (X : List Event) :
    ((promptEvents ++ [Event.promptConfirm]) ++ X).takeWhile (fun e => !(isConfirm e)) =
      promptEvents := rfl

/-- Abort path: a non-empty confirmation answer other than `y` leaves the
tree untouched. -/
theorem mainModel_abort (inp : Inputs) (fs : Entry)
    (h1 : pyLower (pyStrip inp.confirm) ≠ "")
    (h2 : pyLower (pyStrip inp.confirm) ≠ "y") :
    (mainModel inp fs).1 = some fs := by
  unfold mainModel
  dsimp only
  split
  · rfl
  · split
    · rfl
    · next h =>
        exact absurd ⟨h1, h2⟩ h

/-- C7: in every run of `main`, no file content is rewritten and no path is
renamed before the confirmation prompt is answered (every event before the
`promptConfirm` event is a non-mutating prompt); and if the stripped,
lowered answer is non-empty and not `"y"`, `main` returns with the tree —
every file and path — unchanged. -/
theorem main_confirm_gate (inp : Inputs) (fs : Entry) :
    (∀ e ∈ (mainModel inp fs).2.takeWhile (fun e => !(isConfirm e)),
      isMutation e = false) ∧
    (pyLower (pyStrip inp.confirm) ≠ "" → pyLower (pyStrip inp.confirm) ≠ "y" →
      (mainModel inp fs).1 = some fs) := by
  refine ⟨?_, fun h1 h2 => mainModel_abort inp fs h1 h2⟩
  rcases mainModel_shape inp fs with h | h | ⟨A, W, h, -, -⟩
  · rw [h]
    decide
  · rw [h]
    have : (promptEvents ++ [Event.promptConfirm]).takeWhile (fun e => !(isConfirm e)) =
        promptEvents := rfl
    rw [this]
    decide
  · rw [h, takeWhile_prompts]
    decide

/-- C7 witness: with the confirmation answered `" No "` the tree comes back
unchanged, and the pre-confirmation trace prefix contains no mutation. -/
theorem main_confirm_gate_witness :
    (mainModel ⟨"acme", "", "", "", "", "", " No "⟩
        (.dir [("f.txt", .file true [97])])).1 =
      some (.dir [("f.txt", .file true [97])]) ∧
    (∀ e ∈ (mainModel ⟨"acme", "", "", "", "", "", " No "⟩
        (.dir [("f.txt", .file true [97])])).2.takeWhile (fun e => !(isConfirm e)),
      isMutation e = false) := by
  have h := main_confirm_gate ⟨"acme", "", "", "", "", "", " No "⟩
    (.dir [("f.txt", .file true [97])])
  exact ⟨h.2 (by decide) (by decide), h.1⟩

/-- Index ordering in a trace of the form `A ++ recollected :: W` where `A`
holds no write and `W` holds only writes: every rename index precedes the
re-scan marker, which precedes every write index. -/
theorem trace_split_ordering (A W : List Event) (i j : Nat) (o n p : List String)
    (hAw : ∀ q, Event.wroteFile q ∉ A)
    (hWr : ∀ e ∈ W, ∃ q, e = .wroteFile q)
    (hi : (A ++ Event.recollected :: W)[i]? = some (.renamed o n))
    (hj : (A ++ Event.recollected :: W)[j]? = some (.wroteFile p)) :
    i < j ∧ ∃ k, i < k ∧ k < j ∧
      (A ++ Event.recollected :: W)[k]? = some Event.recollected := by
  have hiA : i < A.length := by
    by_contra hlt
    push_neg at hlt
    rw [List.getElem?_append_right hlt] at hi
    have hmem : Event.renamed o n ∈ Event.recollected :: W := List.getElem?_mem hi
    rcases List.mem_cons.mp hmem with h | h
    · exact Event.noConfusion h
    · obtain ⟨q, hq⟩ := hWr _ h
      exact Event.noConfusion hq
  have hjW : A.length < j := by
    rcases Nat.lt_trichotomy j A.length with h | h | h
    · rw [List.getElem?_append_left h] at hj
      exact absurd (List.getElem?_mem hj) (hAw p)
    · subst h
      rw [List.getElem?_append_right (le_refl _)] at hj
      simp at hj
    · exact h
  refine ⟨by omega, A.length, hiA, hjW, ?_⟩
  rw [List.getElem?_append_right (le_refl _)]
  simp

/-- C8: in every run of `main` that applies changes, every rename event
precedes every file-write event, and the re-collection of the text files
from the (renamed) tree sits strictly between them — content edits operate
on the post-rename file locations. -/
theorem main_renames_before_writes (inp : Inputs) (fs : Entry) (i j : Nat)
    (o n p : List String)
    (hi : (mainModel inp fs).2[i]? = some (.renamed o n))
    (hj : (mainModel inp fs).2[j]? = some (.wroteFile p)) :
    i < j ∧ ∃ k, i < k ∧ k < j ∧
      (mainModel inp fs).2[k]? = some Event.recollected := by
  rcases mainModel_shape inp fs with h | h | ⟨A, W, h, hA, hW⟩
  · rw [h] at hj
    have := List.getElem?_mem hj
    simp [promptEvents] at this
  · rw [h] at hj
    have := List.getElem?_mem hj
    simp [promptEvents] at this
  · have hAw : ∀ q, Event.wroteFile q ∉ (promptEvents ++ [Event.promptConfirm]) ++ A := by
      intro q hmem
      rcases List.mem_append.mp hmem with hm | hm
      · simp [promptEvents] at hm
      · obtain ⟨o', n', he⟩ := hA _ hm
        exact Event.noConfusion he
    rcases hW with rfl | ⟨W', rfl, hW'⟩
    · rw [h] at hj
      rw [List.append_nil] at hj
      have : Event.wroteFile p ∈ (promptEvents ++ [Event.promptConfirm]) ++ A := by
        have := List.getElem?_mem hj
        simpa [List.append_assoc] using this
      exact absurd this (hAw p)
    · rw [h] at hi hj ⊢
      have hre : (promptEvents ++ [Event.promptConfirm]) ++ (A ++ Event.recollected :: W') =
          ((promptEvents ++ [Event.promptConfirm]) ++ A) ++ Event.recollected :: W' := by
        simp [List.append_assoc]
      rw [hre] at hi hj ⊢
      exact trace_split_ordering _ W' i j o n p hAw hW' hi hj

/-- C8 witness: a run that renames `ddls/APP_DB` and rewrites `m.sql` has
the rename at index 7, the re-scan marker at index 8 and the write at index
9 of its trace; the ordering theorem applies at those indices. -/
theorem main_renames_before_writes_witness :
    (mainModel ⟨"", "", "", "NEW_DB", "", "", "y"⟩
        (.dir [("ddls", .dir [("APP_DB", .dir [])]),
          ("m.sql", .file true (cps "APP_DB"))])).2[7]? =
      some (.renamed ["ddls", "APP_DB"] ["ddls", "NEW_DB"]) ∧
    (mainModel ⟨"", "", "", "NEW_DB", "", "", "y"⟩
        (.dir [("ddls", .dir [("APP_DB", .dir [])]),
          ("m.sql", .file true (cps "APP_DB"))])).2[9]? =
      some (.wroteFile ["m.sql"]) ∧
    (7 < 9 ∧ ∃ k, 7 < k ∧ k < 9 ∧
      (mainModel ⟨"", "", "", "NEW_DB", "", "", "y"⟩
        (.dir [("ddls", .dir [("APP_DB", .dir [])]),
          ("m.sql", .file true (cps "APP_DB"))])).2[k]? = some Event.recollected) := by
  refine ⟨by decide, by decide, ?_⟩
  exact main_renames_before_writes _ _ 7 9 ["ddls", "APP_DB"] ["ddls", "NEW_DB"]
    ["m.sql"] (by decide) (by decide)

end InitProject
